import Mathlib

/-!
Verification of the indexing and ranking engine of an educational search
engine (sources: `indexer.py`, `search_engine.py`).

Python dictionaries preserve insertion order, and that order is observable
through iteration (it determines posting order, accumulator order and tie
order of the ranked results), so every mapping of the engine is embedded as
an insertion-ordered association list `AList α := List (String × α)`:

* `alGet` is dictionary lookup,
* `alSet` is `d[k] = v` (updates in place, appends a fresh key at the end),
* float values are idealised as real numbers (`ℝ`), integer counters as `ℕ`.

Definitions are translated line by line from the Python source; every place
where the Python code can raise (`KeyError` on a direct subscript, a load
error in the persistence codec) is an `Option` in the embedding.
-/

namespace SearchEngine

/-- Insertion-ordered association list: the embedding of a Python `dict`
with string keys. -/
abbrev AList (α : Type) : Type := List (String × α)

/-- Dictionary lookup `m.get(k)`: first (hence unique, once keys are nodup)
binding of the key. -/
def alGet {α : Type} (k : String) : AList α → Option α
  | [] => none
  | p :: rest => if p.1 = k then some p.2 else alGet k rest

/-- Dictionary update `m[k] = v`: replaces the value in place if the key is
present, otherwise appends the new binding at the end (Python insertion
order semantics). -/
def alSet {α : Type} (k : String) (v : α) : AList α → AList α
  | [] => [(k, v)]
  | p :: rest => if p.1 = k then (k, v) :: rest else p :: alSet k v rest

/-- The keys of an association list, in insertion order. -/
def alKeys {α : Type} (m : AList α) : List String := m.map Prod.fst

@[simp] theorem alGet_nil {α : Type} (k : String) : alGet (α := α) k [] = none := rfl

@[simp] theorem alGet_cons {α : Type} (k : String) (p : String × α) (rest : AList α) :
    alGet k (p :: rest) = if p.1 = k then some p.2 else alGet k rest := rfl

@[simp] theorem alSet_nil {α : Type} (k : String) (v : α) : alSet k v ([] : AList α) = [(k, v)] := rfl

@[simp] theorem alSet_cons {α : Type} (k : String) (v : α) (p : String × α) (rest : AList α) :
    alSet k v (p :: rest) = if p.1 = k then (k, v) :: rest else p :: alSet k v rest := rfl

theorem alGet_alSet_self {α : Type} (k : String) (v : α) (m : AList α) :
    alGet k (alSet k v m) = some v := by
  induction m with
  | nil => simp
  | cons p rest ih =>
      by_cases h : p.1 = k <;> simp [h, ih]

theorem alGet_alSet_ne {α : Type} (k k' : String) (v : α) (m : AList α) (h : k ≠ k') :
    alGet k' (alSet k v m) = alGet k' m := by
  induction m with
  | nil => simp [h]
  | cons p rest ih =>
      simp only [alSet_cons]
      by_cases hp : p.1 = k
      · rw [if_pos hp]
        simp only [alGet_cons, hp]
        rw [if_neg h, if_neg h]
      · rw [if_neg hp]
        simp only [alGet_cons]
        by_cases hp' : p.1 = k'
        · rw [if_pos hp', if_pos hp']
        · rw [if_neg hp', if_neg hp', ih]

theorem alKeys_alSet {α : Type} (k : String) (v : α) (m : AList α) :
    alKeys (alSet k v m) = if k ∈ alKeys m then alKeys m else alKeys m ++ [k] := by
  induction m with
  | nil => simp [alKeys]
  | cons p rest ih =>
      simp only [alKeys] at ih ⊢
      by_cases hp : p.1 = k
      · simp [hp]
      · have hne : ¬ k = p.1 := fun hh => hp hh.symm
        simp only [alSet_cons, if_neg hp, List.map_cons, List.mem_cons, hne, false_or, ih]
        by_cases hk : k ∈ List.map Prod.fst rest
        · simp [hk]
        · simp [hk]

theorem alKeys_nodup_alSet {α : Type} (k : String) (v : α) (m : AList α)
    (h : (alKeys m).Nodup) : (alKeys (alSet k v m)).Nodup := by
  rw [alKeys_alSet]
  by_cases hk : k ∈ alKeys m
  · simpa [hk]
  · simpa [hk, List.nodup_append] using h

theorem alGet_isSome_iff_mem {α : Type} (k : String) (m : AList α) :
    (alGet k m).isSome ↔ k ∈ alKeys m := by
  induction m with
  | nil => simp [alKeys]
  | cons p rest ih =>
      by_cases hp : p.1 = k
      · simp [alKeys, hp]
      · have : ¬ k = p.1 := fun h => hp h.symm
        simp [alKeys, hp, this, ih]

theorem alGet_eq_none_of_not_mem {α : Type} {k : String} {m : AList α}
    (h : k ∉ alKeys m) : alGet k m = none := by
  by_contra hc
  exact h ((alGet_isSome_iff_mem k m).1 (Option.isSome_iff_ne_none.2 hc))

theorem mem_alKeys_of_alGet {α : Type} {k : String} {m : AList α} {v : α}
    (h : alGet k m = some v) : k ∈ alKeys m :=
  (alGet_isSome_iff_mem k m).1 (by simp [h])

/-- With nodup keys, lookup agrees with membership of the binding. -/
theorem alGet_eq_some_iff_mem {α : Type} {k : String} {v : α} {m : AList α}
    (h : (alKeys m).Nodup) : alGet k m = some v ↔ (k, v) ∈ m := by
  induction m with
  | nil => simp
  | cons p rest ih =>
      have h' : (p.1 :: alKeys rest).Nodup := h
      have hcons := List.nodup_cons.1 h'
      have hp1 : p.1 ∉ alKeys rest := hcons.1
      have hnd : (alKeys rest).Nodup := hcons.2
      by_cases hp : p.1 = k
      · rw [alGet_cons, if_pos hp]
        constructor
        · intro hv
          have hv2 : p.2 = v := by injection hv
          have hpkv : p = (k, v) := Prod.ext hp hv2
          rw [hpkv]
          exact List.mem_cons_self _ _
        · intro hm
          rcases List.mem_cons.1 hm with hpv | hmem
          · subst hpv
            rfl
          · exact absurd (List.mem_map_of_mem Prod.fst hmem)
              (show (k, v).1 ∉ List.map Prod.fst rest from hp ▸ hp1)
      · rw [alGet_cons, if_neg hp, ih hnd]
        constructor
        · exact fun hmem => List.mem_cons_of_mem p hmem
        · intro hm
          rcases List.mem_cons.1 hm with hpv | hmem
          · exact absurd (congrArg Prod.fst hpv).symm hp
          · exact hmem

/-! ### Tokenizer (`SearchIndexer.tokenize`) -/

/-- A word character in the sense of the regex `\w` restricted to the ASCII
range exercised by the engine: alphanumeric or underscore. -/
def isWordChar (c : Char) : Bool := c.isAlphanum || c = '_'

/-- Maximal runs of word characters of a character list: the matches of
`\b\w+\b` (the argument accumulates the current run in reverse). -/
def wordRunsAux : List Char → List Char → List (List Char)
  | [], acc => if acc.isEmpty then [] else [acc.reverse]
  | c :: cs, acc =>
      if isWordChar c then wordRunsAux cs (c :: acc)
      else if acc.isEmpty then wordRunsAux cs [] else acc.reverse :: wordRunsAux cs []

def wordRuns (s : List Char) : List (List Char) := wordRunsAux s []

/-- The stop-word set of `tokenize` (copied verbatim from the source). -/
def stop_words : List String :=
  ["the", "a", "an", "and", "or", "but", "in", "on", "at", "to", "for",
   "of", "with", "by", "from", "as", "is", "was", "are", "were", "been",
   "be", "have", "has", "had", "do", "does", "did", "will", "would",
   "could", "should", "may", "might", "can", "this", "that", "these",
   "those", "i", "you", "he", "she", "it", "we", "they", "them", "their"]

/-- Python `str.lower()` on the ASCII fragment. -/
def lowerStr (s : String) : String := ⟨s.data.map Char.toLower⟩

/-- `SearchIndexer.tokenize`: lowercase, extract maximal word-character runs
(`re.findall` of `\b\w+\b`), drop stop words and tokens of length ≤ 2. -/
def tokenize (text : String) : List String :=
  ((wordRuns (lowerStr text).data).map (fun cs => String.mk cs)).filter
    (fun t => ¬ t ∈ stop_words ∧ 2 < t.length)

/-! ### Ingestion (`SearchIndexer.add_document`) -/

/-- One token arriving at a `Counter`: increment if present, append a fresh
binding with count 1 otherwise. -/
def alIncr (t : String) (m : AList Nat) : AList Nat :=
  match alGet t m with
  | some n => alSet t (n + 1) m
  | none => m ++ [(t, 1)]

/-- Python `collections.Counter` over a token list: an insertion-ordered
map from token to occurrence count (first-occurrence order, like a dict). -/
def counter (l : List String) : AList Nat := l.foldl (fun m t => alIncr t m) []

/-- The document metadata stored by the Document Store. -/
structure Doc where
  title : String
  content : String
  url : String
deriving DecidableEq, Repr

/-- The four-field state of `SearchIndexer`. -/
structure EngineState where
  inverted_index : AList (AList Nat)
  documents : AList Doc
  doc_lengths : AList Nat
  tfidf_scores : AList (AList ℝ)

/-- The freshly constructed indexer: all four tables empty. -/
def initState : EngineState := ⟨[], [], [], []⟩

/-- `self.inverted_index[term][doc_id] = freq` with `defaultdict` semantics:
a missing term gets a fresh empty posting dict (appended at the end). -/
def alSetPosting (term doc_id : String) (freq : Nat)
    (idx : AList (AList Nat)) : AList (AList Nat) :=
  alSet term (alSet doc_id freq ((alGet term idx).getD [])) idx

/-- The `for term, freq in term_frequencies.items()` loop of
`add_document`, in `Counter` iteration order. -/
def updIndex (doc_id : String) : AList Nat → AList (AList Nat) → AList (AList Nat)
  | [], idx => idx
  | (t, c) :: rest, idx => updIndex doc_id rest (alSetPosting t doc_id c idx)

/-- `SearchIndexer.add_document`: store the document (content truncated to a
500-character preview), build the weighted token multiset (title tokens three
times, then content tokens), overwrite the postings of each occurring term,
and record the document length. `tfidf_scores` is not touched. -/
def add_document (doc_id title content url : String) (s : EngineState) : EngineState :=
  let doc : Doc := ⟨title, ⟨content.data.take 500⟩, url⟩
  let title_tokens := tokenize title
  let content_tokens := tokenize content
  let all_tokens := title_tokens ++ title_tokens ++ title_tokens ++ content_tokens
  let term_frequencies := counter all_tokens
  { inverted_index := updIndex doc_id term_frequencies s.inverted_index
    documents := alSet doc_id doc s.documents
    doc_lengths := alSet doc_id all_tokens.length s.doc_lengths
    tfidf_scores := s.tfidf_scores }

/-! ### Option-valued iteration helpers

Python raises `KeyError` when a direct subscript misses; the embedding
threads this through `Option` with explicit recursion (a `none` is an
uncaught exception). -/

/-- `Option`-valued left fold: stops at the first failure. -/
def optFold {α β : Type} (f : β → α → Option β) : β → List α → Option β
  | b, [] => some b
  | b, a :: l =>
      match f b a with
      | none => none
      | some b' => optFold f b' l

/-- `Option`-valued map: stops at the first failure. -/
def optMap {α β : Type} (f : α → Option β) : List α → Option (List β)
  | [] => some []
  | a :: l =>
      match f a with
      | none => none
      | some b =>
          match optMap f l with
          | none => none
          | some r => some (b :: r)

@[simp] theorem optFold_nil {α β : Type} (f : β → α → Option β) (b : β) :
    optFold f b [] = some b := rfl

@[simp] theorem optFold_cons {α β : Type} (f : β → α → Option β) (b : β) (a : α) (l : List α) :
    optFold f b (a :: l) =
      match f b a with
      | none => none
      | some b' => optFold f b' l := rfl

@[simp] theorem optMap_nil {α β : Type} (f : α → Option β) : optMap f [] = some [] := rfl

@[simp] theorem optMap_cons {α β : Type} (f : α → Option β) (a : α) (l : List α) :
    optMap f (a :: l) =
      match f a with
      | none => none
      | some b =>
          match optMap f l with
          | none => none
          | some r => some (b :: r) := rfl

/-! ### TF-IDF recompute (`SearchIndexer.calculate_tfidf`) -/

/-- The score stored for one `(term, doc)` pair:
`tf * idf` with `tf = freq / doc_length` (0 when the length is 0) and
`idf = ln(N / df)`.  Floats are idealised as reals. -/
noncomputable def tfidfEntry (numDocs df dl freq : Nat) : ℝ :=
  (if 0 < dl then (freq : ℝ) / (dl : ℝ) else 0) * Real.log ((numDocs : ℝ) / (df : ℝ))

/-- The inner loop of `calculate_tfidf` for one term: builds the score dict
of the term, failing (KeyError) if some posting's document id has no stored
length.  `df` is the size of the term's posting dict. -/
noncomputable def termScores (numDocs : Nat) (dls : AList Nat) (docs : AList Nat) :
    Option (AList ℝ) :=
  optMap (fun p =>
    (alGet p.1 dls).map (fun dl => (p.1, tfidfEntry numDocs docs.length dl p.2))) docs

/-- `SearchIndexer.calculate_tfidf`: no-op when there are no documents,
otherwise recompute `tfidf_scores[term]` for every term of the inverted
index (entries of other terms are left as they were). -/
noncomputable def calculate_tfidf (s : EngineState) : Option EngineState :=
  if s.documents.length = 0 then some s
  else
    (optFold (fun acc p =>
        (termScores s.documents.length s.doc_lengths p.2).map (fun scs => alSet p.1 scs acc))
      s.tfidf_scores s.inverted_index).map
      (fun t => { s with tfidf_scores := t })

/-! ### Stable descending sort

`sorted(..., key=..., reverse=True)` and `list.sort(key=..., reverse=True)`
are stable descending sorts; a stable sort is unique, so the embedding uses
a stable insertion sort: an element is placed after every strictly greater
element and before every equal-or-smaller one. -/

def insertDescBy {α β : Type} [LinearOrder β] (f : α → β) (x : α) : List α → List α
  | [] => [x]
  | y :: ys => if f y ≤ f x then x :: y :: ys else y :: insertDescBy f x ys

def sortDescBy {α β : Type} [LinearOrder β] (f : α → β) : List α → List α
  | [] => []
  | x :: xs => insertDescBy f x (sortDescBy f xs)

@[simp] theorem sortDescBy_nil {α β : Type} [LinearOrder β] (f : α → β) :
    sortDescBy f [] = [] := rfl

@[simp] theorem sortDescBy_cons {α β : Type} [LinearOrder β] (f : α → β) (x : α) (xs : List α) :
    sortDescBy f (x :: xs) = insertDescBy f x (sortDescBy f xs) := rfl

/-! ### Query engine (`SearchEngine.search`) -/

/-- Python `round(x, 4)`, idealised on reals (round half up at the fourth
decimal; the engine's scores are generic reals where the float tie cases of
banker's rounding play no role). -/
noncomputable def round4 (x : ℝ) : ℝ := ((round (x * 10000) : ℤ) : ℝ) / 10000

/-- One search result row. -/
structure SearchResult where
  doc_id : String
  title : String
  url : String
  snippet : String
  score : ℝ
  matched_terms : List String

/-- `doc_scores[doc_id] += score` on a `defaultdict(float)`: a first touch
appends the key at the end with value `0.0 + score`. -/
noncomputable def alAdd (k : String) (v : ℝ) (m : AList ℝ) : AList ℝ :=
  match alGet k m with
  | some w => alSet k (w + v) m
  | none => m ++ [(k, v)]

/-- The score-accumulation loop of `search`: for every query term with a
TF-IDF entry, add its per-document scores into the accumulator. -/
noncomputable def docScores (query_terms : List String) (s : EngineState) : AList ℝ :=
  query_terms.foldl (fun acc term =>
    match alGet term s.tfidf_scores with
    | none => acc
    | some docs => docs.foldl (fun acc2 p => alAdd p.1 p.2 acc2) acc) []

/-- `SearchEngine._get_matched_terms`: the query terms having a posting for
the document, in query order. -/
def get_matched_terms (doc_id : String) (query_terms : List String) (s : EngineState) :
    List String :=
  query_terms.filter (fun term =>
    match alGet term s.inverted_index with
    | none => false
    | some docs => (alGet doc_id docs).isSome)

/-- `SearchEngine.search`: tokenize the query, accumulate TF-IDF scores per
document, return early with `[]` on an empty token list or an empty
accumulator, otherwise stably sort descending by score, truncate to `top_k`
and build the result rows (a missing document-store entry would be a
`KeyError`, hence the `Option`). -/
noncomputable def search (query : String) (top_k : Nat) (s : EngineState) :
    Option (List SearchResult) :=
  let query_terms := tokenize query
  if query_terms.isEmpty then some []
  else
    let scores := docScores query_terms s
    if scores.isEmpty then some []
    else
      optMap (fun p =>
        (alGet p.1 s.documents).map (fun doc =>
          { doc_id := p.1, title := doc.title, url := doc.url, snippet := doc.content,
            score := round4 p.2, matched_terms := get_matched_terms p.1 query_terms s }))
        ((sortDescBy Prod.snd scores).take top_k)

/-! ### Phrase search (`SearchEngine.search_phrase`) -/

/-- Python `sub in s` on character lists. -/
def isSubstring (pat : List Char) : List Char → Bool
  | [] => pat.isPrefixOf []
  | c :: cs => pat.isPrefixOf (c :: cs) || isSubstring pat cs

/-- Non-overlapping occurrence count of a non-empty pattern `p :: ps`,
scanning left to right and skipping the rest of a matched block (the
semantics of `str.count`); the last argument counts characters still to
skip after a match. -/
def countOccAux (p : Char) (ps : List Char) : List Char → Nat → Nat
  | [], _ => 0
  | c :: cs, 0 =>
      if (p :: ps).isPrefixOf (c :: cs) then countOccAux p ps cs ps.length + 1
      else countOccAux p ps cs 0
  | _ :: cs, k + 1 => countOccAux p ps cs k

/-- Python `s.count(sub)`: `len(s) + 1` for the empty pattern, otherwise the
number of non-overlapping occurrences. -/
def countOcc (pat s : List Char) : Nat :=
  match pat with
  | [] => s.length + 1
  | p :: ps => countOccAux p ps s 0

/-- One phrase-search result row (`score` is a Python `int` here). -/
structure PhraseResult where
  doc_id : String
  title : String
  url : String
  snippet : String
  score : Nat
  matched_terms : List String
deriving DecidableEq, Repr

/-- The phrase score of one stored document: content occurrences plus three
times title occurrences, all case-insensitively. -/
def phraseScore (phrase : String) (d : Doc) : Nat :=
  countOcc (lowerStr phrase).data (lowerStr d.content).data +
    countOcc (lowerStr phrase).data (lowerStr d.title).data * 3

/-- The result row built by `search_phrase` for one stored document. -/
def phraseRow (phrase : String) (p : String × Doc) : PhraseResult :=
  ⟨p.1, p.2.title, p.2.url, p.2.content, phraseScore phrase p.2, [phrase]⟩

/-- The scan loop of `search_phrase`: the rows collected for the documents
(in store order) whose lowercased content or title contains the lowercased
phrase. -/
def phraseResults (phrase : String) (s : EngineState) : List PhraseResult :=
  s.documents.filterMap (fun p =>
    if isSubstring (lowerStr phrase).data (lowerStr p.2.content).data
        || isSubstring (lowerStr phrase).data (lowerStr p.2.title).data then
      some (phraseRow phrase p)
    else none)

/-- `SearchEngine.search_phrase`: scan the document store in order, keep the
documents whose lowercased content or title contains the lowercased phrase,
score them, sort stably by descending score and truncate to `top_k`. -/
def search_phrase (phrase : String) (top_k : Nat) (s : EngineState) : List PhraseResult :=
  (sortDescBy PhraseResult.score (phraseResults phrase s)).take top_k

/-! ### Persistence codec (`save_index` / `load_index`)

Per the specification only the persisted data layout is in scope; the JSON
value written to and parsed back from the file is modelled as a tree, with
Python's `int` / `float` distinction kept (ints round-trip as ints). -/

inductive Json where
  | jstr : String → Json
  | jint : Int → Json
  | jfloat : ℝ → Json
  | jobj : List (String × Json) → Json

def encNatMap (m : AList Nat) : Json :=
  .jobj (m.map (fun p => (p.1, Json.jint (p.2 : Int))))

def encIndex (idx : AList (AList Nat)) : Json :=
  .jobj (idx.map (fun p => (p.1, encNatMap p.2)))

def encDoc (d : Doc) : Json :=
  .jobj [("title", .jstr d.title), ("content", .jstr d.content), ("url", .jstr d.url)]

def encDocs (ds : AList Doc) : Json := .jobj (ds.map (fun p => (p.1, encDoc p.2)))

noncomputable def encScoreMap (m : AList ℝ) : Json :=
  .jobj (m.map (fun p => (p.1, Json.jfloat p.2)))

noncomputable def encScores (t : AList (AList ℝ)) : Json :=
  .jobj (t.map (fun p => (p.1, encScoreMap p.2)))

/-- `SearchIndexer.save_index`: the serialized snapshot with its four
top-level fields (the `dict(v)` conversion of the defaultdict rows is the
identity on the data layout). -/
noncomputable def save_index (s : EngineState) : Json :=
  .jobj [("inverted_index", encIndex s.inverted_index),
         ("documents", encDocs s.documents),
         ("doc_lengths", encNatMap s.doc_lengths),
         ("tfidf_scores", encScores s.tfidf_scores)]

def decNat : Json → Option Nat
  | .jint n => if 0 ≤ n then some n.toNat else none
  | _ => none

def decFloat : Json → Option ℝ
  | .jfloat r => some r
  | _ => none

def decStr : Json → Option String
  | .jstr s => some s
  | _ => none

/-- Decode a JSON object into an association list through an element
decoder. -/
def decObj {α : Type} (f : Json → Option α) : Json → Option (AList α)
  | .jobj entries => optMap (fun p => (f p.2).map (fun v => (p.1, v))) entries
  | _ => none

def decDoc (j : Json) : Option Doc :=
  match j with
  | .jobj entries =>
      match alGet "title" entries, alGet "content" entries, alGet "url" entries with
      | some t, some c, some u =>
          match decStr t, decStr c, decStr u with
          | some t', some c', some u' => some ⟨t', c', u'⟩
          | _, _, _ => none
      | _, _, _ => none
  | _ => none

/-- `SearchIndexer.load_index`: read the four fields back from the snapshot;
any missing field or ill-typed entry is a load error (`none`). -/
noncomputable def load_index (j : Json) : Option EngineState :=
  match j with
  | .jobj fields =>
      match alGet "inverted_index" fields, alGet "documents" fields,
            alGet "doc_lengths" fields, alGet "tfidf_scores" fields with
      | some ji, some jd, some jl, some jt =>
          match decObj (decObj decNat) ji, decObj decDoc jd,
                decObj decNat jl, decObj (decObj decFloat) jt with
          | some ii, some dd, some dl, some ts => some ⟨ii, dd, dl, ts⟩
          | _, _, _, _ => none
      | _, _, _, _ => none
  | _ => none

/-! ### Properties of the stable descending sort -/

section SortLemmas

variable {α β : Type} [LinearOrder β] (f : α → β)

@[simp] theorem insertDescBy_nil (x : α) : insertDescBy f x [] = [x] := rfl

@[simp] theorem insertDescBy_cons (x y : α) (ys : List α) :
    insertDescBy f x (y :: ys) =
      if f y ≤ f x then x :: y :: ys else y :: insertDescBy f x ys := rfl

theorem mem_insertDescBy {x y : α} {l : List α} :
    y ∈ insertDescBy f x l ↔ y = x ∨ y ∈ l := by
  induction l with
  | nil => simp
  | cons z zs ih =>
      by_cases h : f z ≤ f x
      · simp [h]
      · simp [h, ih]
        tauto

theorem insertDescBy_perm (x : α) (l : List α) :
    List.Perm (insertDescBy f x l) (x :: l) := by
  induction l with
  | nil => simp
  | cons z zs ih =>
      by_cases h : f z ≤ f x
      · simp [h]
      · rw [insertDescBy_cons, if_neg h]
        exact List.Perm.trans (ih.cons z) (List.Perm.swap x z zs)

theorem sortDescBy_perm (l : List α) : List.Perm (sortDescBy f l) l := by
  induction l with
  | nil => simp
  | cons x xs ih =>
      rw [sortDescBy_cons]
      exact List.Perm.trans (insertDescBy_perm f x _) (ih.cons x)

theorem pairwise_insertDescBy {x : α} {l : List α}
    (h : l.Pairwise (fun a b => f b ≤ f a)) :
    (insertDescBy f x l).Pairwise (fun a b => f b ≤ f a) := by
  induction l with
  | nil => simp
  | cons z zs ih =>
      rcases List.pairwise_cons.1 h with ⟨hz, hzs⟩
      by_cases hc : f z ≤ f x
      · rw [insertDescBy_cons, if_pos hc]
        refine List.pairwise_cons.2 ⟨?_, h⟩
        intro a ha
        rcases List.mem_cons.1 ha with rfl | ha
        · exact hc
        · exact le_trans (hz a ha) hc
      · rw [insertDescBy_cons, if_neg hc]
        refine List.pairwise_cons.2 ⟨?_, ih hzs⟩
        intro a ha
        rcases (mem_insertDescBy f).1 ha with rfl | ha
        · exact le_of_lt (lt_of_not_le hc)
        · exact hz a ha

/-- The output of the sort is non-increasing under the key. -/
theorem pairwise_sortDescBy (l : List α) :
    (sortDescBy f l).Pairwise (fun a b => f b ≤ f a) := by
  induction l with
  | nil => simp
  | cons x xs ih =>
      rw [sortDescBy_cons]
      exact pairwise_insertDescBy f ih

/-- Where a two-element sublist of an insertion can come from. -/
theorem sublist_pair_insertDescBy {x a b : α} {l : List α}
    (h : List.Sublist [a, b] (insertDescBy f x l)) :
    (a = x ∧ b ∈ l) ∨ (b = x ∧ a ∈ l ∧ f x < f a) ∨ List.Sublist [a, b] l := by
  induction l with
  | nil =>
      rw [insertDescBy_nil] at h
      have : ([a, b] : List α).length ≤ ([x] : List α).length := h.length_le
      simp at this
  | cons z zs ih =>
      by_cases hc : f z ≤ f x
      · rw [insertDescBy_cons, if_pos hc] at h
        rcases List.sublist_cons_iff.1 h with h' | ⟨w, hw, hsub⟩
        · exact Or.inr (Or.inr h')
        · injection hw with h1 h2
          subst h1
          subst h2
          exact Or.inl ⟨rfl, List.singleton_sublist.1 hsub⟩
      · rw [insertDescBy_cons, if_neg hc] at h
        rcases List.sublist_cons_iff.1 h with h' | ⟨w, hw, hsub⟩
        · rcases ih h' with ⟨rfl, hb⟩ | ⟨rfl, ha, hf⟩ | h''
          · exact Or.inl ⟨rfl, List.mem_cons_of_mem z hb⟩
          · exact Or.inr (Or.inl ⟨rfl, List.mem_cons_of_mem z ha, hf⟩)
          · exact Or.inr (Or.inr (h''.cons z))
        · injection hw with h1 h2
          subst h1
          subst h2
          have hb : b ∈ insertDescBy f x zs := List.singleton_sublist.1 hsub
          rcases (mem_insertDescBy f).1 hb with rfl | hb'
          · exact Or.inr (Or.inl ⟨rfl, List.mem_cons_self a zs, lt_of_not_le hc⟩)
          · exact Or.inr (Or.inr
              (List.cons_sublist_cons.2 (List.singleton_sublist.2 hb')))

/-- Stability: a key-equal pair of the sorted output appears in the input in
the same relative order. -/
theorem stable_sortDescBy {a b : α} {l : List α}
    (h : List.Sublist [a, b] (sortDescBy f l)) (heq : f a = f b) :
    List.Sublist [a, b] l := by
  induction l with
  | nil => simp at h
  | cons x xs ih =>
      rw [sortDescBy_cons] at h
      rcases sublist_pair_insertDescBy f h with ⟨rfl, hb⟩ | ⟨rfl, ha, hf⟩ | h'
      · have hbx : b ∈ xs := ((sortDescBy_perm f xs).mem_iff).1 hb
        exact List.cons_sublist_cons.2 (List.singleton_sublist.2 hbx)
      · exact absurd heq (ne_of_gt hf)
      · exact (ih h').cons x

end SortLemmas

/-! ### Further association-list lemmas -/

theorem alSet_ne_nil {α : Type} (k : String) (v : α) (m : AList α) : alSet k v m ≠ [] := by
  cases m with
  | nil => simp
  | cons p rest =>
      by_cases h : p.1 = k <;> simp [h]

theorem mem_alKeys_alSet {α : Type} {id k : String} {v : α} {m : AList α}
    (h : id ∈ alKeys (alSet k v m)) : id = k ∨ id ∈ alKeys m := by
  rw [alKeys_alSet] at h
  by_cases hk : k ∈ alKeys m
  · rw [if_pos hk] at h
    exact Or.inr h
  · rw [if_neg hk] at h
    rcases List.mem_append.1 h with h' | h'
    · exact Or.inr h'
    · exact Or.inl (List.mem_singleton.1 h')

theorem alGet_alSet_isSome {α : Type} {id : String} (k : String) (v : α) {m : AList α}
    (h : (alGet id m).isSome) : (alGet id (alSet k v m)).isSome := by
  by_cases hk : k = id
  · subst hk
    simp [alGet_alSet_self]
  · rwa [alGet_alSet_ne k id v m hk]

theorem alGet_append_isSome {α : Type} {id : String} {m m' : AList α}
    (h : (alGet id m).isSome) : (alGet id (m ++ m')).isSome := by
  induction m with
  | nil => simp at h
  | cons p rest ih =>
      by_cases hp : p.1 = id
      · simp [hp]
      · simp only [List.cons_append, alGet_cons, hp, if_false] at h ⊢
        exact ih h

/-- Sum of the frequency stored for `id` across all posting lists: the
right-hand side of the document-length invariant. -/
def postingSum (id : String) (idx : AList (AList Nat)) : Nat :=
  (idx.map (fun p => (alGet id p.2).getD 0)).sum

/-! ### Counter lemmas -/

theorem alKeys_alIncr (t : String) (m : AList Nat) :
    alKeys (alIncr t m) = if t ∈ alKeys m then alKeys m else alKeys m ++ [t] := by
  unfold alIncr
  rcases hg : alGet t m with _ | n
  · have hmem : t ∉ alKeys m := by
      intro hmem
      rw [← alGet_isSome_iff_mem] at hmem
      simp [hg] at hmem
    rw [if_neg hmem]
    simp [alKeys]
  · have hmem : t ∈ alKeys m := mem_alKeys_of_alGet hg
    simp [hmem, alKeys_alSet]

theorem alKeys_counter_nodup (l : List String) : (alKeys (counter l)).Nodup := by
  suffices h : ∀ (m : AList Nat), (alKeys m).Nodup →
      (alKeys (l.foldl (fun m t => alIncr t m) m)).Nodup by
    exact h [] (by simp [alKeys])
  induction l with
  | nil => intro m hm; simpa using hm
  | cons t ts ih =>
      intro m hm
      simp only [List.foldl_cons]
      refine ih (alIncr t m) ?_
      rw [alKeys_alIncr]
      by_cases ht : t ∈ alKeys m
      · simpa [ht]
      · simpa [ht, List.nodup_append] using hm

/-- Sum of the counts of an association list of counters. -/
def alValSum (m : AList Nat) : Nat := (m.map Prod.snd).sum

theorem alValSum_alSet (k : String) (v : Nat) (m : AList Nat) (w : Nat)
    (h : alGet k m = some w) :
    alValSum (alSet k v m) + w = alValSum m + v := by
  induction m with
  | nil => simp at h
  | cons p rest ih =>
      by_cases hp : p.1 = k
      · rw [alGet_cons, if_pos hp] at h
        injection h with h
        subst h
        simp [alValSum, hp]
        omega
      · rw [alGet_cons, if_neg hp] at h
        have := ih h
        simp only [alSet_cons, if_neg hp, alValSum, List.map_cons, List.sum_cons] at this ⊢
        omega

theorem alValSum_alIncr (t : String) (m : AList Nat) :
    alValSum (alIncr t m) = alValSum m + 1 := by
  unfold alIncr
  rcases hg : alGet t m with _ | n
  · simp [alValSum]
  · have h2 := alValSum_alSet t (n + 1) m n hg
    show alValSum (alSet t (n + 1) m) = alValSum m + 1
    omega

/-- The total count of a `Counter` is the length of the underlying list. -/
theorem alValSum_counter (l : List String) : alValSum (counter l) = l.length := by
  suffices h : ∀ (m : AList Nat),
      alValSum (l.foldl (fun m t => alIncr t m) m) = alValSum m + l.length by
    simpa [alValSum] using h []
  induction l with
  | nil => intro m; simp
  | cons t ts ih =>
      intro m
      simp only [List.foldl_cons, List.length_cons]
      rw [ih (alIncr t m), alValSum_alIncr]
      omega

/-! ### Lemmas about the inverted-index update of `add_document` -/

theorem alGet_updIndex_not_mem {doc_id term : String} {cnt : AList Nat}
    {idx : AList (AList Nat)} (h : term ∉ alKeys cnt) :
    alGet term (updIndex doc_id cnt idx) = alGet term idx := by
  induction cnt generalizing idx with
  | nil => rfl
  | cons q rest ih =>
      obtain ⟨t, c⟩ := q
      have ht : term ≠ t := by
        intro hh
        exact h (by simp [alKeys, hh])
      have hrest : term ∉ alKeys rest := fun hh => h (by simp [alKeys] at hh ⊢; tauto)
      show alGet term (updIndex doc_id rest (alSetPosting t doc_id c idx)) = alGet term idx
      rw [ih hrest]
      exact alGet_alSet_ne t term _ idx (fun hh => ht hh.symm)

theorem alGet_updIndex_cases {doc_id : String} {cnt : AList Nat} {idx : AList (AList Nat)}
    (hnd : (alKeys cnt).Nodup) {term : String} {docs' : AList Nat}
    (h : alGet term (updIndex doc_id cnt idx) = some docs') :
    alGet term idx = some docs' ∨
      ∃ c, docs' = alSet doc_id c ((alGet term idx).getD []) := by
  induction cnt generalizing idx with
  | nil => exact Or.inl h
  | cons q rest ih =>
      obtain ⟨t, c⟩ := q
      have hcons := List.nodup_cons.1 (show (t :: alKeys rest).Nodup from hnd)
      by_cases ht : term = t
      · subst ht
        rw [show updIndex doc_id ((term, c) :: rest) idx =
              updIndex doc_id rest (alSetPosting term doc_id c idx) from rfl,
            alGet_updIndex_not_mem hcons.1] at h
        unfold alSetPosting at h
        rw [alGet_alSet_self] at h
        injection h with h
        exact Or.inr ⟨c, h.symm⟩
      · rw [show updIndex doc_id ((t, c) :: rest) idx =
              updIndex doc_id rest (alSetPosting t doc_id c idx) from rfl] at h
        have hne : t ≠ term := fun hh => ht hh.symm
        rcases ih hcons.2 h with h' | ⟨c', h'⟩
        · rw [alSetPosting, alGet_alSet_ne t term _ idx hne] at h'
          exact Or.inl h'
        · rw [alSetPosting, alGet_alSet_ne t term _ idx hne] at h'
          exact Or.inr ⟨c', h'⟩

theorem alKeys_updIndex_nodup {doc_id : String} {cnt : AList Nat} {idx : AList (AList Nat)}
    (h : (alKeys idx).Nodup) : (alKeys (updIndex doc_id cnt idx)).Nodup := by
  induction cnt generalizing idx with
  | nil => exact h
  | cons q rest ih =>
      obtain ⟨t, c⟩ := q
      exact ih (alKeys_nodup_alSet t _ idx h)

theorem postingSum_nil (id : String) : postingSum id [] = 0 := rfl

theorem postingSum_zero {id : String} {idx : AList (AList Nat)}
    (h : ∀ q ∈ idx, alGet id q.2 = none) : postingSum id idx = 0 := by
  induction idx with
  | nil => rfl
  | cons p rest ih =>
      have hp := h p (List.mem_cons_self p rest)
      have hr := ih (fun q hq => h q (List.mem_cons_of_mem p hq))
      simp [postingSum, hp] at hr ⊢
      exact hr

theorem postingSum_alSet_eq {id t : String} {v : AList Nat} {idx : AList (AList Nat)}
    (h : (alGet id v).getD 0 = (alGet id ((alGet t idx).getD [])).getD 0) :
    postingSum id (alSet t v idx) = postingSum id idx := by
  induction idx with
  | nil =>
      simp only [alGet_nil, Option.getD_none, alGet_nil] at h
      simp [postingSum, h]
  | cons p rest ih =>
      by_cases hp : p.1 = t
      · rw [alGet_cons, if_pos hp, Option.getD_some] at h
        simp [postingSum, alSet_cons, hp, h]
      · rw [alGet_cons, if_neg hp] at h
        have := ih h
        simp only [alSet_cons, if_neg hp, postingSum, List.map_cons, List.sum_cons] at this ⊢
        omega

theorem postingSum_alSet_add {id t : String} {c : Nat} {v : AList Nat}
    {idx : AList (AList Nat)}
    (h0 : alGet id ((alGet t idx).getD []) = none) (hv : alGet id v = some c) :
    postingSum id (alSet t v idx) = postingSum id idx + c := by
  induction idx with
  | nil => simp [postingSum, hv]
  | cons p rest ih =>
      by_cases hp : p.1 = t
      · rw [alGet_cons, if_pos hp, Option.getD_some] at h0
        simp [postingSum, alSet_cons, hp, h0, hv]
        omega
      · rw [alGet_cons, if_neg hp] at h0
        have := ih h0
        simp only [alSet_cons, if_neg hp, postingSum, List.map_cons, List.sum_cons] at this ⊢
        omega

/-- Updating the postings of a fresh document id adds exactly the counter
total to that id's posting sum. -/
theorem postingSum_updIndex {doc_id : String} {cnt : AList Nat} {idx : AList (AList Nat)}
    (hnd : (alKeys cnt).Nodup)
    (hdisj : ∀ t ∈ alKeys cnt, ∀ docs, alGet t idx = some docs → alGet doc_id docs = none) :
    postingSum doc_id (updIndex doc_id cnt idx) = alValSum cnt + postingSum doc_id idx := by
  induction cnt generalizing idx with
  | nil => simp [alValSum, updIndex]
  | cons q rest ih =>
      obtain ⟨t, c⟩ := q
      have hcons := List.nodup_cons.1 (show (t :: alKeys rest).Nodup from hnd)
      have ht0 : alGet doc_id ((alGet t idx).getD []) = none := by
        rcases hg : alGet t idx with _ | docs
        · simp
        · exact hdisj t (show t ∈ t :: alKeys rest from List.mem_cons_self t _) docs hg
      show postingSum doc_id (updIndex doc_id rest (alSetPosting t doc_id c idx)) =
        alValSum ((t, c) :: rest) + postingSum doc_id idx
      rw [ih hcons.2 ?side]
      case side =>
        intro t' ht' docs hdocs
        have hne : t ≠ t' := fun hh => hcons.1 (hh ▸ ht')
        rw [alSetPosting, alGet_alSet_ne t t' _ idx hne] at hdocs
        exact hdisj t' (show t' ∈ t :: alKeys rest from List.mem_cons_of_mem t ht') docs hdocs
      have : postingSum doc_id (alSetPosting t doc_id c idx) = postingSum doc_id idx + c :=
        postingSum_alSet_add ht0 (alGet_alSet_self doc_id c _)
      rw [this]
      simp [alValSum]
      omega

theorem postingSum_updIndex_other {doc_id id : String} {cnt : AList Nat}
    {idx : AList (AList Nat)} (hne : id ≠ doc_id) :
    postingSum id (updIndex doc_id cnt idx) = postingSum id idx := by
  induction cnt generalizing idx with
  | nil => rfl
  | cons q rest ih =>
      obtain ⟨t, c⟩ := q
      show postingSum id (updIndex doc_id rest (alSetPosting t doc_id c idx)) = postingSum id idx
      rw [ih]
      exact postingSum_alSet_eq (by rw [alGet_alSet_ne doc_id id _ _ (fun hh => hne hh.symm)])

/-! ### Reachable states and the structural invariant -/

/-- States reachable from a fresh indexer by ingestions and TF-IDF
recomputes (a recompute step exists only when the Python code does not
raise). -/
inductive Reachable : EngineState → Prop where
  | init : Reachable initState
  | add (doc_id title content url : String) {s : EngineState} :
      Reachable s → Reachable (add_document doc_id title content url s)
  | recompute {s s' : EngineState} :
      Reachable s → calculate_tfidf s = some s' → Reachable s'

/-- The structural invariant of reachable states. -/
structure Inv (s : EngineState) : Prop where
  keysIdx : (alKeys s.inverted_index).Nodup
  keysDocs : (alKeys s.documents).Nodup
  keysLens : (alKeys s.doc_lengths).Nodup
  keysTfidf : (alKeys s.tfidf_scores).Nodup
  postings : ∀ term docs, alGet term s.inverted_index = some docs →
    docs ≠ [] ∧ (alKeys docs).Nodup ∧
      ∀ id ∈ alKeys docs, (alGet id s.documents).isSome ∧ (alGet id s.doc_lengths).isSome
  tfidfDocs : ∀ term scs, alGet term s.tfidf_scores = some scs →
    ∀ id ∈ alKeys scs, (alGet id s.documents).isSome
  docsLens : ∀ id, (alGet id s.documents).isSome ↔ (alGet id s.doc_lengths).isSome
  emptyCase : s.documents = [] →
    s.inverted_index = [] ∧ s.doc_lengths = [] ∧ s.tfidf_scores = []

theorem inv_init : Inv initState := by
  refine ⟨?_, ?_, ?_, ?_, ?_, ?_, ?_, ?_⟩ <;> simp [initState, alKeys]

theorem inv_add (doc_id title content url : String) {s : EngineState} (h : Inv s) :
    Inv (add_document doc_id title content url s) := by
  set cnt := counter (tokenize title ++ tokenize title ++ tokenize title ++ tokenize content)
    with hcnt
  have hcntnd : (alKeys cnt).Nodup := alKeys_counter_nodup _
  refine ⟨?_, ?_, ?_, ?_, ?_, ?_, ?_, ?_⟩
  · exact alKeys_updIndex_nodup h.keysIdx
  · exact alKeys_nodup_alSet _ _ _ h.keysDocs
  · exact alKeys_nodup_alSet _ _ _ h.keysLens
  · exact h.keysTfidf
  · intro term docs hdocs
    rcases alGet_updIndex_cases hcntnd hdocs with hold | ⟨c, hnew⟩
    · rcases h.postings term docs hold with ⟨hne, hnd, hmem⟩
      refine ⟨hne, hnd, fun id hid => ?_⟩
      rcases hmem id hid with ⟨h1, h2⟩
      exact ⟨alGet_alSet_isSome _ _ h1, alGet_alSet_isSome _ _ h2⟩
    · subst hnew
      refine ⟨alSet_ne_nil _ _ _, ?_, ?_⟩
      · rcases hg : alGet term s.inverted_index with _ | docs0
        · simp [hg, alKeys]
        · simp only [hg, Option.getD_some]
          exact alKeys_nodup_alSet _ _ _ (h.postings term docs0 hg).2.1
      · intro id hid
        rcases mem_alKeys_alSet hid with rfl | hid'
        · constructor
          · show (alGet id (alSet id _ s.documents)).isSome
            rw [alGet_alSet_self]
            rfl
          · show (alGet id (alSet id _ s.doc_lengths)).isSome
            rw [alGet_alSet_self]
            rfl
        · rcases hg : alGet term s.inverted_index with _ | docs0
          · rw [hg] at hid'
            simp [alKeys] at hid'
          · rw [hg] at hid'
            rcases (h.postings term docs0 hg).2.2 id hid' with ⟨h1, h2⟩
            exact ⟨alGet_alSet_isSome _ _ h1, alGet_alSet_isSome _ _ h2⟩
  · intro term scs hscs id hid
    exact alGet_alSet_isSome _ _ (h.tfidfDocs term scs hscs id hid)
  · intro id
    by_cases hd : id = doc_id
    · subst hd
      simp [add_document, alGet_alSet_self]
    · have hne : doc_id ≠ id := fun hh => hd hh.symm
      show (alGet id (alSet doc_id _ s.documents)).isSome ↔
        (alGet id (alSet doc_id _ s.doc_lengths)).isSome
      rw [alGet_alSet_ne _ _ _ _ hne, alGet_alSet_ne _ _ _ _ hne]
      exact h.docsLens id
  · intro hempty
    exact absurd hempty (alSet_ne_nil _ _ _)

/-! ### Lemmas about `calculate_tfidf` -/

theorem alGet_alSet_cases {α : Type} {k k' : String} {v w : α} {m : AList α}
    (h : alGet k' (alSet k v m) = some w) : (k' = k ∧ w = v) ∨ alGet k' m = some w := by
  by_cases hk : k = k'
  · subst hk
    rw [alGet_alSet_self] at h
    injection h with h
    exact Or.inl ⟨rfl, h.symm⟩
  · rw [alGet_alSet_ne _ _ _ _ hk] at h
    exact Or.inr h

theorem termScores_keys {N df : Nat} {dls : AList Nat} {docs : AList Nat} {scs : AList ℝ}
    (h : optMap (fun p => (alGet p.1 dls).map (fun dl => (p.1, tfidfEntry N df dl p.2))) docs =
      some scs) : alKeys scs = alKeys docs := by
  induction docs generalizing scs with
  | nil =>
      rw [optMap_nil] at h
      injection h with h
      rw [← h]
      rfl
  | cons p rest ih =>
      rw [optMap_cons] at h
      rcases hg : alGet p.1 dls with _ | dl
      · rw [hg] at h
        simp at h
      · rw [hg] at h
        simp only [Option.map_some'] at h
        rcases hr : optMap (fun p =>
            (alGet p.1 dls).map (fun dl => (p.1, tfidfEntry N df dl p.2))) rest with _ | scs'
        · rw [hr] at h
          simp at h
        · rw [hr] at h
          simp only [Option.some.injEq] at h
          rw [← h]
          show p.1 :: alKeys scs' = p.1 :: alKeys rest
          rw [ih hr]

theorem termScores_isSome {N : Nat} {dls : AList Nat} {docs : AList Nat}
    (h : ∀ p ∈ docs, (alGet p.1 dls).isSome) : (termScores N dls docs).isSome := by
  unfold termScores
  generalize docs.length = df
  induction docs with
  | nil => simp
  | cons p rest ih =>
      rcases hg : alGet p.1 dls with _ | dl
      · have := h p (List.mem_cons_self p rest)
        simp [hg] at this
      · have hr := ih (fun q hq => h q (List.mem_cons_of_mem p hq))
        rcases hrr : optMap (fun p =>
            (alGet p.1 dls).map (fun dl => (p.1, tfidfEntry N df dl p.2))) rest with _ | scs'
        · rw [hrr] at hr
          simp at hr
        · rw [optMap_cons, hg, hrr]
          rfl

/-- The value stored by `termScores` for each posting. -/
theorem termScores_entry {N df : Nat} {dls : AList Nat} {docs : AList Nat} {scs : AList ℝ}
    (h : optMap (fun p => (alGet p.1 dls).map (fun dl => (p.1, tfidfEntry N df dl p.2))) docs =
      some scs) {id : String} {freq : Nat} (hid : alGet id docs = some freq) :
    ∃ dl, alGet id dls = some dl ∧ alGet id scs = some (tfidfEntry N df dl freq) := by
  induction docs generalizing scs with
  | nil => simp at hid
  | cons p rest ih =>
      rw [optMap_cons] at h
      rcases hg : alGet p.1 dls with _ | dl
      · rw [hg] at h
        simp at h
      · rw [hg] at h
        simp only [Option.map_some'] at h
        rcases hr : optMap (fun p =>
            (alGet p.1 dls).map (fun dl => (p.1, tfidfEntry N df dl p.2))) rest with _ | scs'
        · rw [hr] at h
          simp at h
        · rw [hr] at h
          simp only [Option.some.injEq] at h
          subst h
          by_cases hp : p.1 = id
          · rw [alGet_cons, if_pos hp] at hid
            injection hid with hid
            subst hid
            refine ⟨dl, hp ▸ hg, ?_⟩
            rw [alGet_cons, if_pos hp]
          · rw [alGet_cons, if_neg hp] at hid
            rcases ih hr hid with ⟨dl', h1, h2⟩
            refine ⟨dl', h1, ?_⟩
            rw [alGet_cons, if_neg hp]
            exact h2

/-- The per-term step of the recompute fold. -/
noncomputable def tfidfStep (N : Nat) (dls : AList Nat) (acc : AList (AList ℝ))
    (p : String × AList Nat) : Option (AList (AList ℝ)) :=
  (termScores N dls p.2).map (fun scs => alSet p.1 scs acc)

theorem calculate_tfidf_pos {s : EngineState} (hlen : s.documents.length ≠ 0) :
    calculate_tfidf s =
      (optFold (tfidfStep s.documents.length s.doc_lengths) s.tfidf_scores
        s.inverted_index).map (fun t => { s with tfidf_scores := t }) := by
  unfold calculate_tfidf tfidfStep
  rw [if_neg hlen]

theorem optFold_isSome {α β : Type} {f : β → α → Option β} {b : β} {l : List α}
    (h : ∀ b' a, a ∈ l → (f b' a).isSome) : (optFold f b l).isSome := by
  induction l generalizing b with
  | nil => simp
  | cons a rest ih =>
      rw [optFold_cons]
      rcases hg : f b a with _ | b'
      · have := h b a (List.mem_cons_self a rest)
        simp [hg] at this
      · exact ih (fun b'' a' ha' => h b'' a' (List.mem_cons_of_mem a ha'))

/-- Entry property preserved through the recompute fold. -/
theorem optFold_tfidfStep_prop {N : Nat} {dls : AList Nat} (Q : AList ℝ → Prop)
    {idx : AList (AList Nat)} {acc t : AList (AList ℝ)}
    (hstep : ∀ p ∈ idx, ∀ v, termScores N dls p.2 = some v → Q v)
    (hacc : ∀ term scs, alGet term acc = some scs → Q scs)
    (h : optFold (tfidfStep N dls) acc idx = some t) :
    ∀ term scs, alGet term t = some scs → Q scs := by
  induction idx generalizing acc with
  | nil =>
      rw [optFold_nil] at h
      injection h with h
      subst h
      exact hacc
  | cons p rest ih =>
      rw [optFold_cons] at h
      rcases hg : tfidfStep N dls acc p with _ | acc'
      · rw [hg] at h
        simp at h
      · rw [hg] at h
        refine ih (fun q hq => hstep q (List.mem_cons_of_mem p hq)) ?_ h
        unfold tfidfStep at hg
        rcases hts : termScores N dls p.2 with _ | scs0
        · rw [hts] at hg
          simp at hg
        · rw [hts] at hg
          simp only [Option.map_some', Option.some.injEq] at hg
          subst hg
          intro term scs hescs
          rcases alGet_alSet_cases hescs with ⟨rfl, rfl⟩ | hold
          · exact hstep p (List.mem_cons_self p rest) scs hts
          · exact hacc term scs hold

theorem optFold_tfidfStep_keysNodup {N : Nat} {dls : AList Nat}
    {idx : AList (AList Nat)} {acc t : AList (AList ℝ)}
    (hacc : (alKeys acc).Nodup) (h : optFold (tfidfStep N dls) acc idx = some t) :
    (alKeys t).Nodup := by
  induction idx generalizing acc with
  | nil =>
      rw [optFold_nil] at h
      injection h with h
      subst h
      exact hacc
  | cons p rest ih =>
      rw [optFold_cons] at h
      rcases hg : tfidfStep N dls acc p with _ | acc'
      · rw [hg] at h
        simp at h
      · rw [hg] at h
        refine ih ?_ h
        unfold tfidfStep at hg
        rcases hts : termScores N dls p.2 with _ | scs0
        · rw [hts] at hg
          simp at hg
        · rw [hts] at hg
          simp only [Option.map_some', Option.some.injEq] at hg
          subst hg
          exact alKeys_nodup_alSet _ _ _ hacc

theorem optFold_tfidfStep_not_mem {N : Nat} {dls : AList Nat} {term : String}
    {idx : AList (AList Nat)} {acc t : AList (AList ℝ)}
    (hterm : term ∉ alKeys idx) (h : optFold (tfidfStep N dls) acc idx = some t) :
    alGet term t = alGet term acc := by
  induction idx generalizing acc with
  | nil =>
      rw [optFold_nil] at h
      injection h with h
      subst h
      rfl
  | cons p rest ih =>
      have hne : p.1 ≠ term := by
        intro hh
        exact hterm (by rw [← hh]; exact List.mem_cons_self p.1 _)
      have hrest : term ∉ alKeys rest := fun hh => hterm (List.mem_cons_of_mem p.1 hh)
      rw [optFold_cons] at h
      rcases hg : tfidfStep N dls acc p with _ | acc'
      · rw [hg] at h
        simp at h
      · rw [hg] at h
        rw [ih hrest h]
        unfold tfidfStep at hg
        rcases hts : termScores N dls p.2 with _ | scs0
        · rw [hts] at hg
          simp at hg
        · rw [hts] at hg
          simp only [Option.map_some', Option.some.injEq] at hg
          subst hg
          exact alGet_alSet_ne _ _ _ _ hne

/-- After a successful fold, every term of the index maps to its freshly
computed score table. -/
theorem optFold_tfidfStep_entry {N : Nat} {dls : AList Nat}
    {idx : AList (AList Nat)} {acc t : AList (AList ℝ)}
    (hnd : (alKeys idx).Nodup) (h : optFold (tfidfStep N dls) acc idx = some t) :
    ∀ p ∈ idx, ∃ scs, termScores N dls p.2 = some scs ∧ alGet p.1 t = some scs := by
  induction idx generalizing acc with
  | nil => simp
  | cons q rest ih =>
      have hcons := List.nodup_cons.1 (show (q.1 :: alKeys rest).Nodup from hnd)
      rw [optFold_cons] at h
      rcases hg : tfidfStep N dls acc q with _ | acc'
      · rw [hg] at h
        simp at h
      · rw [hg] at h
        intro p hp
        rcases List.mem_cons.1 hp with rfl | hp'
        · unfold tfidfStep at hg
          rcases hts : termScores N dls p.2 with _ | scs0
          · rw [hts] at hg
            simp at hg
          · rw [hts] at hg
            simp only [Option.map_some', Option.some.injEq] at hg
            subst hg
            refine ⟨scs0, rfl, ?_⟩
            rw [optFold_tfidfStep_not_mem hcons.1 h]
            exact alGet_alSet_self _ _ _
        · exact ih hcons.2 h p hp'

theorem inv_recompute {s s' : EngineState} (h : Inv s)
    (hc : calculate_tfidf s = some s') : Inv s' := by
  by_cases hlen : s.documents.length = 0
  · unfold calculate_tfidf at hc
    rw [if_pos hlen] at hc
    injection hc with hc
    subst hc
    exact h
  · rw [calculate_tfidf_pos hlen] at hc
    rcases hf : optFold (tfidfStep s.documents.length s.doc_lengths) s.tfidf_scores
        s.inverted_index with _ | t
    · rw [hf] at hc
      simp at hc
    · rw [hf] at hc
      simp only [Option.map_some', Option.some.injEq] at hc
      subst hc
      refine ⟨h.keysIdx, h.keysDocs, h.keysLens, ?_, h.postings, ?_, h.docsLens, ?_⟩
      · exact optFold_tfidfStep_keysNodup h.keysTfidf hf
      · intro term scs hscs id hid
        refine optFold_tfidfStep_prop
          (fun v => ∀ id ∈ alKeys v, (alGet id s.documents).isSome) ?_ ?_ hf term scs hscs id hid
        · intro p hp v hv
          have hpk : alGet p.1 s.inverted_index = some p.2 :=
            (alGet_eq_some_iff_mem h.keysIdx).2 hp
          have hkeys : alKeys v = alKeys p.2 := termScores_keys hv
          intro id' hid'
          rw [hkeys] at hid'
          exact ((h.postings p.1 p.2 hpk).2.2 id' hid').1
        · intro term' scs' hscs' id' hid'
          exact h.tfidfDocs term' scs' hscs' id' hid'
      · intro hempty
        exact absurd (by rw [hempty]; rfl) hlen

/-- On states satisfying the invariant, the recompute never raises. -/
theorem calculate_tfidf_isSome {s : EngineState} (h : Inv s) :
    (calculate_tfidf s).isSome := by
  by_cases hlen : s.documents.length = 0
  · unfold calculate_tfidf
    rw [if_pos hlen]
    rfl
  · rw [calculate_tfidf_pos hlen]
    have : (optFold (tfidfStep s.documents.length s.doc_lengths) s.tfidf_scores
        s.inverted_index).isSome := by
      refine optFold_isSome ?_
      intro acc p hp
      have hpk : alGet p.1 s.inverted_index = some p.2 :=
        (alGet_eq_some_iff_mem h.keysIdx).2 hp
      have hts : (termScores s.documents.length s.doc_lengths p.2).isSome := by
        refine termScores_isSome ?_
        intro q hq
        exact ((h.postings p.1 p.2 hpk).2.2 q.1 (List.mem_map_of_mem Prod.fst hq)).2
      unfold tfidfStep
      rcases hg : termScores s.documents.length s.doc_lengths p.2 with _ | scs
      · rw [hg] at hts
        simp at hts
      · rfl
    rcases hg : optFold (tfidfStep s.documents.length s.doc_lengths) s.tfidf_scores
        s.inverted_index with _ | t
    · rw [hg] at this
      simp at this
    · rfl

/-- Every reachable state satisfies the structural invariant. -/
theorem inv_of_reachable {s : EngineState} (h : Reachable s) : Inv s := by
  induction h with
  | init => exact inv_init
  | add doc_id title content url _ ih => exact inv_add doc_id title content url ih
  | recompute _ hc ih => exact inv_recompute ih hc

/-! ### Safety of `search` -/

theorem alKeys_alAdd (k : String) (v : ℝ) (m : AList ℝ) :
    alKeys (alAdd k v m) = if k ∈ alKeys m then alKeys m else alKeys m ++ [k] := by
  unfold alAdd
  rcases hg : alGet k m with _ | w
  · have hmem : k ∉ alKeys m := by
      intro hmem
      rw [← alGet_isSome_iff_mem] at hmem
      simp [hg] at hmem
    rw [if_neg hmem]
    simp [alKeys]
  · have hmem : k ∈ alKeys m := mem_alKeys_of_alGet hg
    simp [hmem, alKeys_alSet]

theorem mem_alKeys_alAdd {id k : String} {v : ℝ} {m : AList ℝ}
    (h : id ∈ alKeys (alAdd k v m)) : id = k ∨ id ∈ alKeys m := by
  rw [alKeys_alAdd] at h
  by_cases hk : k ∈ alKeys m
  · rw [if_pos hk] at h
    exact Or.inr h
  · rw [if_neg hk] at h
    rcases List.mem_append.1 h with h' | h'
    · exact Or.inr h'
    · exact Or.inl (List.mem_singleton.1 h')

theorem mem_alKeys_innerFold {docs : AList ℝ} {acc : AList ℝ} {id : String}
    (h : id ∈ alKeys (docs.foldl (fun acc2 p => alAdd p.1 p.2 acc2) acc)) :
    id ∈ alKeys acc ∨ id ∈ alKeys docs := by
  induction docs generalizing acc with
  | nil => exact Or.inl h
  | cons p rest ih =>
      rcases ih h with h' | h'
      · rcases mem_alKeys_alAdd h' with rfl | h''
        · exact Or.inr (List.mem_cons_self _ _)
        · exact Or.inl h''
      · exact Or.inr (List.mem_cons_of_mem _ h')

/-- Every key of the accumulator comes from some TF-IDF row. -/
theorem docScores_keys_sub {query_terms : List String} {s : EngineState} {id : String}
    (h : id ∈ alKeys (docScores query_terms s)) :
    ∃ term scs, alGet term s.tfidf_scores = some scs ∧ id ∈ alKeys scs := by
  suffices hgen : ∀ (acc : AList ℝ),
      id ∈ alKeys (query_terms.foldl (fun acc term =>
        match alGet term s.tfidf_scores with
        | none => acc
        | some docs => docs.foldl (fun acc2 p => alAdd p.1 p.2 acc2) acc) acc) →
      id ∈ alKeys acc ∨ ∃ term scs, alGet term s.tfidf_scores = some scs ∧ id ∈ alKeys scs by
    rcases hgen [] h with h' | h'
    · simp [alKeys] at h'
    · exact h'
  clear h
  induction query_terms with
  | nil =>
      intro acc hacc
      exact Or.inl hacc
  | cons term rest ih =>
      intro acc hacc
      simp only [List.foldl_cons] at hacc
      rcases hg : alGet term s.tfidf_scores with _ | docs
      · rw [hg] at hacc
        exact ih acc hacc
      · rw [hg] at hacc
        rcases ih _ hacc with h' | h'
        · rcases mem_alKeys_innerFold h' with h'' | h''
          · exact Or.inl h''
          · exact Or.inr ⟨term, docs, hg, h''⟩
        · exact Or.inr h'

theorem optMap_isSome {α β : Type} {f : α → Option β} {l : List α}
    (h : ∀ a ∈ l, (f a).isSome) : (optMap f l).isSome := by
  induction l with
  | nil => simp
  | cons a rest ih =>
      rw [optMap_cons]
      rcases hg : f a with _ | b
      · have := h a (List.mem_cons_self a rest)
        simp [hg] at this
      · have hr := ih (fun a' ha' => h a' (List.mem_cons_of_mem a ha'))
        rcases hrr : optMap f rest with _ | r
        · rw [hrr] at hr
          simp at hr
        · rfl

/-- On invariant states, `search` never raises. -/
theorem search_isSome {s : EngineState} (h : Inv s) (query : String) (top_k : Nat) :
    (search query top_k s).isSome := by
  unfold search
  by_cases h1 : (tokenize query).isEmpty
  · rw [if_pos h1]
    rfl
  · rw [if_neg h1]
    by_cases h2 : (docScores (tokenize query) s).isEmpty
    · rw [if_pos h2]
      rfl
    · rw [if_neg h2]
      refine optMap_isSome ?_
      intro p hp
      have hmem : p ∈ docScores (tokenize query) s := by
        have hsub : p ∈ sortDescBy Prod.snd (docScores (tokenize query) s) :=
          (List.take_sublist top_k _).subset hp
        exact (sortDescBy_perm Prod.snd _).mem_iff.1 hsub
      have hid : p.1 ∈ alKeys (docScores (tokenize query) s) :=
        List.mem_map_of_mem Prod.fst hmem
      rcases docScores_keys_sub hid with ⟨term, scs, hterm, hidscs⟩
      have hdoc : (alGet p.1 s.documents).isSome := h.tfidfDocs term scs hterm p.1 hidscs
      rcases hg : alGet p.1 s.documents with _ | doc
      · rw [hg] at hdoc
        simp at hdoc
      · rfl

/-! ### Round-trip of the persistence codec -/

theorem optMap_map_section {α β : Type} (enc : α → β) (dec : β → Option α)
    (h : ∀ x, dec (enc x) = some x) (l : List α) :
    optMap dec (l.map enc) = some l := by
  induction l with
  | nil => rfl
  | cons x rest ih => rw [List.map_cons, optMap_cons, h x, ih]

theorem decObj_jobj {α : Type} (f : Json → Option α) (entries : List (String × Json)) :
    decObj f (Json.jobj entries) =
      optMap (fun p => (f p.2).map (fun v => (p.1, v))) entries := rfl

theorem decObj_encNatMap (m : AList Nat) : decObj decNat (encNatMap m) = some m := by
  rw [encNatMap, decObj_jobj]
  refine optMap_map_section _ _ (fun p => ?_) m
  have hd : decNat (Json.jint (p.2 : Int)) = some p.2 := by
    show (if 0 ≤ (p.2 : Int) then some (p.2 : Int).toNat else none) = some p.2
    rw [if_pos (by positivity)]
    simp
  show (decNat (Json.jint (p.2 : Int))).map (fun v => (p.1, v)) = some p
  rw [hd]
  rfl

theorem decObj_encIndex (idx : AList (AList Nat)) :
    decObj (decObj decNat) (encIndex idx) = some idx := by
  rw [encIndex, decObj_jobj]
  refine optMap_map_section _ _ (fun p => ?_) idx
  show ((decObj decNat) (encNatMap p.2)).map (fun v => (p.1, v)) = some p
  rw [decObj_encNatMap]
  rfl

theorem decDoc_encDoc (d : Doc) : decDoc (encDoc d) = some d := rfl

theorem decObj_encDocs (ds : AList Doc) : decObj decDoc (encDocs ds) = some ds := by
  rw [encDocs, decObj_jobj]
  refine optMap_map_section _ _ (fun p => ?_) ds
  show (decDoc (encDoc p.2)).map (fun v => (p.1, v)) = some p
  rw [decDoc_encDoc]
  rfl

theorem decObj_encScoreMap (m : AList ℝ) : decObj decFloat (encScoreMap m) = some m := by
  rw [encScoreMap, decObj_jobj]
  refine optMap_map_section _ _ (fun p => ?_) m
  rfl

theorem decObj_encScores (t : AList (AList ℝ)) :
    decObj (decObj decFloat) (encScores t) = some t := by
  rw [encScores, decObj_jobj]
  refine optMap_map_section _ _ (fun p => ?_) t
  show ((decObj decFloat) (encScoreMap p.2)).map (fun v => (p.1, v)) = some p
  rw [decObj_encScoreMap]
  rfl

/-- C5: loading a saved snapshot restores exactly the original state on all
four fields (proved for every state, in particular for any sequence of
ingestions followed by one recompute). -/
theorem load_save_roundtrip (s : EngineState) : load_index (save_index s) = some s := by
  show load_index (Json.jobj
    [("inverted_index", encIndex s.inverted_index),
     ("documents", encDocs s.documents),
     ("doc_lengths", encNatMap s.doc_lengths),
     ("tfidf_scores", encScores s.tfidf_scores)]) = some s
  unfold load_index
  simp only [alGet_cons, alGet_nil]
  simp
  rw [decObj_encIndex, decObj_encDocs, decObj_encNatMap, decObj_encScores]

/-! ### The document-length postcondition of ingestion -/

/-- C6: after `add_document`, the stored document length is three times the
title token count plus the content token count. -/
theorem doc_length_weighted_count (s : EngineState) (doc_id title content url : String) :
    alGet doc_id (add_document doc_id title content url s).doc_lengths =
      some (3 * (tokenize title).length + (tokenize content).length) := by
  show alGet doc_id (alSet doc_id
    (tokenize title ++ tokenize title ++ tokenize title ++ tokenize content).length
    s.doc_lengths) = _
  rw [alGet_alSet_self]
  congr 1
  simp only [List.length_append]
  ring

/-! ### The frame property of ingestion -/

/-- C8: `add_document` never touches the TF-IDF table; only the document
store, the inverted index and the length table are updated. -/
theorem add_document_preserves_tfidf (s : EngineState) (doc_id title content url : String) :
    (add_document doc_id title content url s).tfidf_scores = s.tfidf_scores := rfl

/-! ### Safety of the engine's direct subscripts -/

/-- C9: in every reachable state, every document id occurring in a posting
list or in the TF-IDF table is a key of both the document store and the
length table, and consequently neither `calculate_tfidf` nor `search` can
raise a `KeyError`. -/
theorem reachable_lookups_safe {s : EngineState} (h : Reachable s) :
    (∀ term docs, alGet term s.inverted_index = some docs → ∀ id ∈ alKeys docs,
        (alGet id s.documents).isSome ∧ (alGet id s.doc_lengths).isSome) ∧
    (∀ term scs, alGet term s.tfidf_scores = some scs → ∀ id ∈ alKeys scs,
        (alGet id s.documents).isSome ∧ (alGet id s.doc_lengths).isSome) ∧
    (calculate_tfidf s).isSome ∧
    (∀ query top_k, (search query top_k s).isSome) := by
  have hinv := inv_of_reachable h
  refine ⟨?_, ?_, calculate_tfidf_isSome hinv, fun query top_k => search_isSome hinv query top_k⟩
  · intro term docs hdocs id hid
    exact (hinv.postings term docs hdocs).2.2 id hid
  · intro term scs hscs id hid
    have hdoc := hinv.tfidfDocs term scs hscs id hid
    exact ⟨hdoc, (hinv.docsLens id).1 hdoc⟩

/-- Witness for C9 at a concrete reachable state. -/
theorem reachable_lookups_safe_witness :
    (calculate_tfidf initState).isSome ∧ (search "apple" 3 initState).isSome :=
  ⟨(reachable_lookups_safe Reachable.init).2.2.1,
   (reachable_lookups_safe Reachable.init).2.2.2 "apple" 3⟩

/-! ### The TF-IDF postcondition -/

theorem length_le_of_nodup_subset {l1 l2 : List String} (hnd : l1.Nodup)
    (hsub : ∀ x ∈ l1, x ∈ l2) : l1.length ≤ l2.length := by
  calc l1.length = l1.toFinset.card := (List.toFinset_card_of_nodup hnd).symm
    _ ≤ l2.toFinset.card := Finset.card_le_card
        (fun x hx => List.mem_toFinset.2 (hsub x (List.mem_toFinset.1 hx)))
    _ ≤ l2.length := l2.toFinset_card_le

theorem log_ratio_eq_zero_iff {N df : Nat} (h1 : 1 ≤ df) (h2 : df ≤ N) :
    Real.log ((N : ℝ) / (df : ℝ)) = 0 ↔ df = N := by
  have hdf : (0 : ℝ) < (df : ℝ) := by exact_mod_cast h1
  have hN : (0 : ℝ) < (N : ℝ) := lt_of_lt_of_le hdf (by exact_mod_cast h2)
  rw [Real.log_eq_zero]
  constructor
  · rintro (h | h | h)
    · exact absurd h (ne_of_gt (div_pos hN hdf))
    · have hNdf : N = df := by
        field_simp at h
        exact_mod_cast h
      exact hNdf.symm
    · exact absurd h (ne_of_gt (lt_trans (by norm_num) (div_pos hN hdf)))
  · intro h
    subst h
    right
    left
    field_simp

/-- C3: postcondition of `calculate_tfidf` on reachable states: with no
documents the table is left as it was (hence empty), otherwise every
`(term, doc)` posting receives `tf * ln(N / df)` with `tf` taken as 0 on a
zero document length, and the idf factor vanishes exactly when the term
occurs in every document. -/
theorem calculate_tfidf_spec {s s' : EngineState} (hre : Reachable s)
    (hc : calculate_tfidf s = some s') :
    (s.documents = [] → s' = s ∧ s'.tfidf_scores = []) ∧
    (∀ term docs, alGet term s.inverted_index = some docs →
      (∀ id freq, alGet id docs = some freq →
        ∃ dl scs, alGet id s.doc_lengths = some dl ∧
          alGet term s'.tfidf_scores = some scs ∧
          alGet id scs = some ((if 0 < dl then (freq : ℝ) / (dl : ℝ) else 0) *
            Real.log ((s.documents.length : ℝ) / (docs.length : ℝ)))) ∧
      (Real.log ((s.documents.length : ℝ) / (docs.length : ℝ)) = 0 ↔
        docs.length = s.documents.length)) := by
  have hinv := inv_of_reachable hre
  constructor
  · intro hempty
    have hlen : s.documents.length = 0 := by rw [hempty]; rfl
    unfold calculate_tfidf at hc
    rw [if_pos hlen] at hc
    injection hc with hc
    subst hc
    exact ⟨rfl, (hinv.emptyCase hempty).2.2⟩
  · intro term docs hdocs
    by_cases hlen : s.documents.length = 0
    · exfalso
      have hempty : s.documents = [] := List.length_eq_zero.1 hlen
      rw [(hinv.emptyCase hempty).1] at hdocs
      simp at hdocs
    · have hpost := hinv.postings term docs hdocs
      constructor
      · intro id freq hfreq
        rw [calculate_tfidf_pos hlen] at hc
        rcases hf : optFold (tfidfStep s.documents.length s.doc_lengths) s.tfidf_scores
            s.inverted_index with _ | t
        · rw [hf] at hc
          simp at hc
        · rw [hf] at hc
          simp only [Option.map_some', Option.some.injEq] at hc
          subst hc
          have hmem : (term, docs) ∈ s.inverted_index :=
            (alGet_eq_some_iff_mem hinv.keysIdx).1 hdocs
          obtain ⟨scs, hts, hget⟩ :=
            optFold_tfidfStep_entry hinv.keysIdx hf (term, docs) hmem
          have hts' : optMap (fun p => (alGet p.1 s.doc_lengths).map
              (fun dl => (p.1, tfidfEntry s.documents.length docs.length dl p.2))) docs =
              some scs := hts
          obtain ⟨dl, hdl, hscs⟩ := termScores_entry hts' hfreq
          exact ⟨dl, scs, hdl, hget, hscs⟩
      · have hdf1 : 1 ≤ docs.length := by
          rcases docs with _ | ⟨q, rest⟩
          · exact absurd rfl hpost.1
          · simp
        have hdfN : docs.length ≤ s.documents.length := by
          have hkeys : (alKeys docs).length = docs.length := List.length_map _ _
          have hkeys2 : (alKeys s.documents).length = s.documents.length :=
            List.length_map _ _
          rw [← hkeys, ← hkeys2]
          refine length_le_of_nodup_subset hpost.2.1 ?_
          intro x hx
          rw [← alGet_isSome_iff_mem]
          exact (hpost.2.2 x hx).1
        exact log_ratio_eq_zero_iff hdf1 hdfN

/-! ### Phrase-search theorems -/

theorem countOcc_pos_of_isSubstring {pat s : List Char} (h : isSubstring pat s = true) :
    1 ≤ countOcc pat s := by
  cases pat with
  | nil =>
      show 1 ≤ s.length + 1
      omega
  | cons p ps =>
      induction s with
      | nil => simp [isSubstring, List.isPrefixOf] at h
      | cons c cs ih =>
          rw [isSubstring, Bool.or_eq_true] at h
          show 1 ≤ countOccAux p ps (c :: cs) 0
          have hred : countOccAux p ps (c :: cs) 0 =
              if (p :: ps).isPrefixOf (c :: cs) then countOccAux p ps cs ps.length + 1
              else countOccAux p ps cs 0 := rfl
          rcases h with h | h
          · rw [hred, if_pos h]
            omega
          · by_cases hp : (p :: ps).isPrefixOf (c :: cs)
            · rw [hred, if_pos hp]
              omega
            · rw [hred, if_neg hp]
              exact ih h

theorem isSubstring_nil_left (s : List Char) : isSubstring [] s = true := by
  cases s with
  | nil => rfl
  | cons c cs => rfl

theorem filterMap_eq_map_of_all {α β : Type} {f : α → Option β} {g : α → β} {l : List α}
    (h : ∀ a ∈ l, f a = some (g a)) : l.filterMap f = l.map g := by
  induction l with
  | nil => rfl
  | cons a rest ih =>
      rw [List.filterMap_cons, h a (List.mem_cons_self a rest), List.map_cons,
        ih (fun a' ha' => h a' (List.mem_cons_of_mem a ha'))]

/-- Membership description of the scan loop. -/
theorem mem_phraseResults {phrase : String} {s : EngineState} {r : PhraseResult} :
    r ∈ phraseResults phrase s ↔ ∃ p ∈ s.documents,
      (isSubstring (lowerStr phrase).data (lowerStr p.2.content).data
        || isSubstring (lowerStr phrase).data (lowerStr p.2.title).data) = true ∧
      r = phraseRow phrase p := by
  unfold phraseResults
  rw [List.mem_filterMap]
  constructor
  · rintro ⟨p, hp, hr⟩
    by_cases hc : (isSubstring (lowerStr phrase).data (lowerStr p.2.content).data
        || isSubstring (lowerStr phrase).data (lowerStr p.2.title).data) = true
    · rw [if_pos hc] at hr
      injection hr with hr
      exact ⟨p, hp, hc, hr.symm⟩
    · rw [if_neg hc] at hr
      exact absurd hr (by simp)
  · rintro ⟨p, hp, hc, hr⟩
    exact ⟨p, hp, by rw [if_pos hc, hr]⟩

/-- C7: `search_phrase` scores every kept document as content occurrences
plus three times title occurrences of the lowercased phrase, keeps exactly
the documents with a positive score (up to the `top_k` truncation), sorts
descending, and in particular a phrase occurring twice in the content and
once in the title scores `2 + 1*3 = 5`. -/
theorem search_phrase_spec (phrase : String) (top_k : Nat) (s : EngineState) :
    (∀ r ∈ search_phrase phrase top_k s, ∃ d, (r.doc_id, d) ∈ s.documents ∧
      r.score = phraseScore phrase d ∧ 0 < r.score) ∧
    (search_phrase phrase top_k s).Pairwise (fun a b => b.score ≤ a.score) ∧
    ((phraseResults phrase s).length ≤ top_k → ∀ p ∈ s.documents,
      (isSubstring (lowerStr phrase).data (lowerStr p.2.content).data
        || isSubstring (lowerStr phrase).data (lowerStr p.2.title).data) = true →
      ∃ r ∈ search_phrase phrase top_k s, r.doc_id = p.1 ∧
        r.score = phraseScore phrase p.2) ∧
    (search_phrase "foo" 10
        ⟨[], [("d1", ⟨"foo bar", "foo baz foo", "u"⟩)], [], []⟩).map PhraseResult.score =
      [5] := by
  refine ⟨?_, ?_, ?_, by decide⟩
  · intro r hr
    have hr1 : r ∈ sortDescBy PhraseResult.score (phraseResults phrase s) :=
      (List.take_sublist top_k _).subset hr
    have hr2 : r ∈ phraseResults phrase s :=
      (sortDescBy_perm PhraseResult.score _).mem_iff.1 hr1
    rcases mem_phraseResults.1 hr2 with ⟨p, hp, hc, hrr⟩
    refine ⟨p.2, by rw [hrr]; exact hp, by rw [hrr]; rfl, ?_⟩
    rw [hrr]
    show 0 < phraseScore phrase p.2
    unfold phraseScore
    rw [Bool.or_eq_true] at hc
    rcases hc with h | h
    · have := countOcc_pos_of_isSubstring h
      omega
    · have := countOcc_pos_of_isSubstring h
      omega
  · exact (pairwise_sortDescBy PhraseResult.score (phraseResults phrase s)).sublist
      (List.take_sublist top_k _)
  · intro hlen p hp hc
    have hmem : phraseRow phrase p ∈ phraseResults phrase s :=
      mem_phraseResults.2 ⟨p, hp, hc, rfl⟩
    have hmem2 : phraseRow phrase p ∈
        sortDescBy PhraseResult.score (phraseResults phrase s) :=
      (sortDescBy_perm PhraseResult.score _).mem_iff.2 hmem
    have htake : search_phrase phrase top_k s =
        sortDescBy PhraseResult.score (phraseResults phrase s) := by
      unfold search_phrase
      refine List.take_of_length_le ?_
      rw [(sortDescBy_perm PhraseResult.score _).length_eq]
      exact hlen
    rw [htake]
    exact ⟨_, hmem2, rfl, rfl⟩

/-- Witness for C7 at a concrete one-document store. -/
theorem search_phrase_spec_witness :
    ∃ d, ((phraseRow "foo" ("d1", ⟨"foo bar", "foo baz foo", "u"⟩)).doc_id, d) ∈
        ([("d1", (⟨"foo bar", "foo baz foo", "u"⟩ : Doc))] : AList Doc) ∧
      (phraseRow "foo" ("d1", ⟨"foo bar", "foo baz foo", "u"⟩)).score = phraseScore "foo" d ∧
      0 < (phraseRow "foo" ("d1", ⟨"foo bar", "foo baz foo", "u"⟩)).score :=
  (search_phrase_spec "foo" 10 ⟨[], [("d1", ⟨"foo bar", "foo baz foo", "u"⟩)], [], []⟩).1
    (phraseRow "foo" ("d1", ⟨"foo bar", "foo baz foo", "u"⟩)) (by decide)

/-- C10: with a non-empty store and `top_k` at least the number of stored
documents, a phrase search for the empty string returns every stored
document, each with a strictly positive score. -/
theorem search_phrase_empty_returns_all {s : EngineState} {top_k : Nat}
    (hne : s.documents ≠ []) (hk : s.documents.length ≤ top_k) :
    List.Perm ((search_phrase "" top_k s).map PhraseResult.doc_id) (alKeys s.documents) ∧
    search_phrase "" top_k s ≠ [] ∧
    (∀ r ∈ search_phrase "" top_k s, 0 < r.score) := by
  have hcond : ∀ d : Doc, (isSubstring (lowerStr "").data (lowerStr d.content).data
      || isSubstring (lowerStr "").data (lowerStr d.title).data) = true := by
    intro d
    have h0 : (lowerStr "").data = [] := rfl
    rw [h0, isSubstring_nil_left, isSubstring_nil_left]
    rfl
  have hall : phraseResults "" s = s.documents.map (phraseRow "") := by
    unfold phraseResults
    refine filterMap_eq_map_of_all ?_
    intro p hp
    show (if (isSubstring (lowerStr "").data (lowerStr p.2.content).data
        || isSubstring (lowerStr "").data (lowerStr p.2.title).data) = true then
        some (phraseRow "" p) else none) = some (phraseRow "" p)
    exact if_pos (hcond p.2)
  have hlen : (phraseResults "" s).length = s.documents.length := by
    rw [hall, List.length_map]
  have htake : search_phrase "" top_k s =
      sortDescBy PhraseResult.score (phraseResults "" s) := by
    unfold search_phrase
    refine List.take_of_length_le ?_
    rw [(sortDescBy_perm PhraseResult.score _).length_eq, hlen]
    exact hk
  have hperm : List.Perm (search_phrase "" top_k s) (phraseResults "" s) := by
    rw [htake]
    exact sortDescBy_perm PhraseResult.score _
  refine ⟨?_, ?_, ?_⟩
  · have hm := hperm.map PhraseResult.doc_id
    refine hm.trans ?_
    rw [hall, List.map_map]
    have hcomp : (PhraseResult.doc_id ∘ phraseRow "") = Prod.fst := by
      funext p
      rfl
    rw [hcomp]
    exact List.Perm.refl _
  · intro hempty
    rw [hempty] at hperm
    have h0 : (phraseResults "" s).length = 0 := by
      have hl := hperm.length_eq
      simpa using hl.symm
    rw [hlen] at h0
    exact hne (List.length_eq_zero.1 h0)
  · intro r hr
    have hr2 : r ∈ phraseResults "" s := hperm.subset hr
    rcases mem_phraseResults.1 hr2 with ⟨p, hp, hc, hrr⟩
    rw [hrr]
    show 0 < phraseScore "" p.2
    unfold phraseScore
    have hdata : (lowerStr "").data = [] := rfl
    rw [hdata]
    have h1 := countOcc_pos_of_isSubstring
      (isSubstring_nil_left (lowerStr p.2.content).data)
    omega

/-- Witness for C10 at a concrete one-document store. -/
theorem search_phrase_empty_returns_all_witness :
    List.Perm ((search_phrase "" 4
        ⟨[], [("d1", ⟨"t", "c", "u"⟩)], [], []⟩).map PhraseResult.doc_id)
      (alKeys ([("d1", (⟨"t", "c", "u"⟩ : Doc))])) ∧
    search_phrase "" 4 ⟨[], [("d1", ⟨"t", "c", "u"⟩)], [], []⟩ ≠ [] ∧
    (∀ r ∈ search_phrase "" 4 ⟨[], [("d1", ⟨"t", "c", "u"⟩)], [], []⟩, 0 < r.score) :=
  search_phrase_empty_returns_all (by decide) (by decide)

/-! ### The document-length / posting-sum invariant (C1) -/

/-- Reachable states in which no document id is ever ingested twice. -/
inductive ReachableFresh : EngineState → Prop where
  | init : ReachableFresh initState
  | add (doc_id title content url : String) {s : EngineState} :
      ReachableFresh s → alGet doc_id s.documents = none →
      ReachableFresh (add_document doc_id title content url s)
  | recompute {s s' : EngineState} :
      ReachableFresh s → calculate_tfidf s = some s' → ReachableFresh s'

theorem reachable_of_fresh {s : EngineState} (h : ReachableFresh s) : Reachable s := by
  induction h with
  | init => exact Reachable.init
  | add doc_id title content url _ _ ih => exact Reachable.add doc_id title content url ih
  | recompute _ hc ih => exact Reachable.recompute ih hc

theorem calculate_tfidf_frame {s s' : EngineState} (hc : calculate_tfidf s = some s') :
    s'.inverted_index = s.inverted_index ∧ s'.documents = s.documents ∧
      s'.doc_lengths = s.doc_lengths := by
  by_cases hlen : s.documents.length = 0
  · unfold calculate_tfidf at hc
    rw [if_pos hlen] at hc
    injection hc with hc
    subst hc
    exact ⟨rfl, rfl, rfl⟩
  · rw [calculate_tfidf_pos hlen] at hc
    rcases hf : optFold (tfidfStep s.documents.length s.doc_lengths) s.tfidf_scores
        s.inverted_index with _ | t
    · rw [hf] at hc
      simp at hc
    · rw [hf] at hc
      simp only [Option.map_some', Option.some.injEq] at hc
      subst hc
      exact ⟨rfl, rfl, rfl⟩

/-- C1 (amended): in runs where every ingested document id is fresh, after
every ingestion the stored document length equals the sum of that id's
frequencies over all posting lists.  (The unrestricted claim fails: see the
re-ingestion counterexample.) -/
theorem docLength_eq_postingSum_of_fresh {s : EngineState} (h : ReachableFresh s) :
    ∀ id dl, alGet id s.doc_lengths = some dl → postingSum id s.inverted_index = dl := by
  induction h with
  | init =>
      intro id dl hdl
      simp [initState] at hdl
  | add doc_id title content url hs hfresh ih =>
      rename_i s'
      intro id dl hdl
      have hinv := inv_of_reachable (reachable_of_fresh hs)
      have hnone : ∀ q ∈ s'.inverted_index, alGet doc_id q.2 = none := by
        intro q hq
        have hqk : alGet q.1 s'.inverted_index = some q.2 :=
          (alGet_eq_some_iff_mem hinv.keysIdx).2 hq
        refine alGet_eq_none_of_not_mem ?_
        intro hmem
        have := ((hinv.postings q.1 q.2 hqk).2.2 doc_id hmem).1
        rw [hfresh] at this
        simp at this
      by_cases hid : id = doc_id
      · subst hid
        have hdl' : dl = (tokenize title ++ tokenize title ++ tokenize title ++
            tokenize content).length := by
          have : alGet id (alSet id (tokenize title ++ tokenize title ++ tokenize title ++
              tokenize content).length s'.doc_lengths) = some dl := hdl
          rw [alGet_alSet_self] at this
          injection this with this
          exact this.symm
        show postingSum id (updIndex id (counter (tokenize title ++ tokenize title ++
          tokenize title ++ tokenize content)) s'.inverted_index) = dl
        rw [postingSum_updIndex (alKeys_counter_nodup _) ?hdisj]
        case hdisj =>
          intro t _ docs hdocs
          exact hnone (t, docs) ((alGet_eq_some_iff_mem hinv.keysIdx).1 hdocs)
        rw [postingSum_zero hnone, alValSum_counter, hdl']
        omega
      · have hne : doc_id ≠ id := fun hh => hid hh.symm
        have hdl' : alGet id s'.doc_lengths = some dl := by
          have : alGet id (alSet doc_id (tokenize title ++ tokenize title ++ tokenize title ++
              tokenize content).length s'.doc_lengths) = some dl := hdl
          rwa [alGet_alSet_ne _ _ _ _ hne] at this
        show postingSum id (updIndex doc_id (counter (tokenize title ++ tokenize title ++
          tokenize title ++ tokenize content)) s'.inverted_index) = dl
        rw [postingSum_updIndex_other hid]
        exact ih id dl hdl'
  | recompute hs hc ih =>
      intro id dl hdl
      rcases calculate_tfidf_frame hc with ⟨h1, _, h3⟩
      rw [h1]
      rw [h3] at hdl
      exact ih id dl hdl

/-- Witness for the amended C1 at a concrete fresh ingestion. -/
theorem docLength_eq_postingSum_of_fresh_witness :
    postingSum "d1" (add_document "d1" "" "apple banana" "" initState).inverted_index = 2 :=
  docLength_eq_postingSum_of_fresh
    (ReachableFresh.add "d1" "" "apple banana" "" ReachableFresh.init rfl) "d1" 2 (by decide)

/-- C1 counterexample: re-ingesting id `d` (first with content
`"apple banana"`, then with content `"apple"`) leaves a stale posting for
`banana`, so the stored length 1 differs from the posting sum 2 in a
reachable state obtained directly after an `add_document` call. -/
theorem docLength_postingSum_reingest_cex :
    Reachable (add_document "d" "" "apple" ""
      (add_document "d" "" "apple banana" "" initState)) ∧
    alGet "d" (add_document "d" "" "apple" ""
      (add_document "d" "" "apple banana" "" initState)).doc_lengths = some 1 ∧
    postingSum "d" (add_document "d" "" "apple" ""
      (add_document "d" "" "apple banana" "" initState)).inverted_index = 2 ∧
    (2 : Nat) ≠ 1 :=
  ⟨Reachable.add "d" "" "apple" ""
      (Reachable.add "d" "" "apple banana" "" Reachable.init),
   by decide, by decide, by decide⟩

/-! ### Emptiness behaviour of `search` (C2) -/

/-- C2 (amended): `search` returns the empty result sequence exactly when
the accumulator receives no entry at all — no surviving query term has any
TF-IDF posting.  (A document whose accumulated score is zero is still
returned: see the counterexample.) -/
theorem search_empty_of_no_accumulation (query : String) (top_k : Nat) (s : EngineState)
    (h : docScores (tokenize query) s = []) : search query top_k s = some [] := by
  unfold search
  by_cases h1 : (tokenize query).isEmpty
  · rw [if_pos h1]
  · rw [if_neg h1, if_pos (by rw [h]; rfl)]

/-- Witness for the amended C2: a query with no index match yields `[]`. -/
theorem search_empty_of_no_accumulation_witness :
    search "apple" 5 initState = some [] :=
  search_empty_of_no_accumulation "apple" 5 initState rfl

/-- The one-document state of the C2 counterexample. -/
def S1 : EngineState := add_document "d1" "" "apple" "" initState

/-- `S1` after the TF-IDF recompute: the sole term `apple` occurs in the
sole document, so `idf = ln(1/1) = 0` and the stored score is `0`. -/
noncomputable def S1t : EngineState :=
  { S1 with tfidf_scores := [("apple", [("d1", tfidfEntry 1 1 1 1)])] }

theorem calculate_tfidf_S1 : calculate_tfidf S1 = some S1t := rfl

theorem tfidfEntry_1111_eq_zero : tfidfEntry 1 1 1 1 = 0 := by
  unfold tfidfEntry
  norm_num [Real.log_one]

/-- C2 counterexample: in the reachable state `S1t` the single accumulated
score of the query `"apple"` is zero (so no document accumulates a nonzero
score), yet `search` does not return the empty sequence (the accumulator
dict is non-empty, which is all the code checks). -/
theorem search_zero_scores_nonempty_cex :
    calculate_tfidf S1 = some S1t ∧ Reachable S1t ∧
    docScores (tokenize "apple") S1t = [("d1", tfidfEntry 1 1 1 1)] ∧
    tfidfEntry 1 1 1 1 = 0 ∧
    search "apple" 10 S1t ≠ some [] := by
  refine ⟨calculate_tfidf_S1,
    Reachable.recompute (Reachable.add "d1" "" "apple" "" Reachable.init) calculate_tfidf_S1,
    rfl, tfidfEntry_1111_eq_zero, ?_⟩
  intro hcontra
  have hlen : (search "apple" 10 S1t).map List.length = some 1 := rfl
  rw [hcontra] at hlen
  simp at hlen

/-! ### Order and stability of `search` results (C4) -/

theorem round4_mono {x y : ℝ} (h : x ≤ y) : round4 x ≤ round4 y := by
  unfold round4
  have hr : round (x * 10000) ≤ round (y * 10000) := by
    rw [round_eq, round_eq]
    exact Int.floor_le_floor (by linarith)
  have hc : ((round (x * 10000) : ℤ) : ℝ) ≤ ((round (y * 10000) : ℤ) : ℝ) := by
    exact_mod_cast hr
  linarith

theorem optMap_length {α β : Type} {f : α → Option β} {l : List α} {r : List β}
    (h : optMap f l = some r) : r.length = l.length := by
  induction l generalizing r with
  | nil =>
      rw [optMap_nil] at h
      injection h with h
      rw [← h]
      rfl
  | cons a rest ih =>
      rw [optMap_cons] at h
      rcases hg : f a with _ | b
      · rw [hg] at h
        simp at h
      · rw [hg] at h
        rcases hr : optMap f rest with _ | r'
        · rw [hr] at h
          simp at h
        · rw [hr] at h
          injection h with h
          rw [← h, List.length_cons, List.length_cons, ih hr]

theorem optMap_get {α β : Type} {f : α → Option β} {l : List α} {r : List β}
    (h : optMap f l = some r) (i : Nat) (hi : i < l.length) (hi' : i < r.length) :
    f (l.get ⟨i, hi⟩) = some (r.get ⟨i, hi'⟩) := by
  induction l generalizing r i with
  | nil => simp at hi
  | cons a rest ih =>
      rw [optMap_cons] at h
      rcases hg : f a with _ | b
      · rw [hg] at h
        simp at h
      · rw [hg] at h
        rcases hr : optMap f rest with _ | r'
        · rw [hr] at h
          simp at h
        · rw [hr] at h
          injection h with h
          subst h
          cases i with
          | zero => exact hg
          | succ i' =>
              have hi2 : i' < rest.length := by simpa using hi
              have hi2' : i' < r'.length := by simpa using hi'
              exact ih hr i' hi2 hi2'

theorem pair_sublist_of_get_lt {α : Type} (l : List α) (i j : Nat) (hi : i < l.length)
    (hj : j < l.length) (hij : i < j) :
    List.Sublist [l.get ⟨i, hi⟩, l.get ⟨j, hj⟩] l := by
  induction l generalizing i j with
  | nil => simp at hi
  | cons x xs ih =>
      cases i with
      | zero =>
          cases j with
          | zero => omega
          | succ j' =>
              have hj' : j' < xs.length := by simpa using hj
              exact List.cons_sublist_cons.2
                (List.singleton_sublist.2 (xs.get_mem j' hj'))
      | succ i' =>
          cases j with
          | zero => omega
          | succ j' =>
              have hi' : i' < xs.length := by simpa using hi
              have hj' : j' < xs.length := by simpa using hj
              exact (ih i' j' hi' hj' (by omega)).cons x

theorem indexOf_lt_of_pair_sublist {l : List String} {x y : String}
    (h : List.Sublist [x, y] l) (hnd : l.Nodup) : l.indexOf x < l.indexOf y := by
  induction l with
  | nil => simp at h
  | cons c cs ih =>
      have hcnd := List.nodup_cons.1 hnd
      rcases List.sublist_cons_iff.1 h with h' | ⟨w, hw, hsub⟩
      · have hx : x ∈ cs := h'.subset (by simp)
        have hy : y ∈ cs := h'.subset (by simp)
        have hxc : x ≠ c := fun hh => hcnd.1 (hh ▸ hx)
        have hyc : y ≠ c := fun hh => hcnd.1 (hh ▸ hy)
        rw [List.indexOf_cons_ne cs (Ne.symm hxc), List.indexOf_cons_ne cs (Ne.symm hyc)]
        exact Nat.succ_lt_succ (ih h' hcnd.2)
      · injection hw with h1 h2
        subst h1
        subst h2
        have hy : y ∈ cs := List.singleton_sublist.1 hsub
        have hyc : y ≠ x := fun hh => hcnd.1 (hh ▸ hy)
        rw [List.indexOf_cons_self, List.indexOf_cons_ne cs (Ne.symm hyc)]
        exact Nat.succ_pos _

theorem alKeys_alAdd_nodup {k : String} {v : ℝ} {m : AList ℝ}
    (h : (alKeys m).Nodup) : (alKeys (alAdd k v m)).Nodup := by
  rw [alKeys_alAdd]
  by_cases hk : k ∈ alKeys m
  · simpa [hk]
  · simpa [hk, List.nodup_append] using h

theorem innerFold_keys_nodup {docs : AList ℝ} {acc : AList ℝ}
    (h : (alKeys acc).Nodup) :
    (alKeys (docs.foldl (fun acc2 p => alAdd p.1 p.2 acc2) acc)).Nodup := by
  induction docs generalizing acc with
  | nil => exact h
  | cons p rest ih => exact ih (alKeys_alAdd_nodup h)

theorem docScores_keys_nodup (query_terms : List String) (s : EngineState) :
    (alKeys (docScores query_terms s)).Nodup := by
  suffices hgen : ∀ acc : AList ℝ, (alKeys acc).Nodup →
      (alKeys (query_terms.foldl (fun acc term =>
        match alGet term s.tfidf_scores with
        | none => acc
        | some docs => docs.foldl (fun acc2 p => alAdd p.1 p.2 acc2) acc) acc)).Nodup by
    exact hgen [] (by simp [alKeys])
  induction query_terms with
  | nil => exact fun acc hacc => hacc
  | cons term rest ih =>
      intro acc hacc
      simp only [List.foldl_cons]
      rcases hg : alGet term s.tfidf_scores with _ | docs
      · exact ih acc hacc
      · exact ih _ (innerFold_keys_nodup hacc)

/-- C4 (amended): `search` results are sorted by non-increasing (rounded)
score; each returned score is the rounding of the document's accumulated
score; and entries whose accumulated scores are equal appear in the
relative order in which their documents first entered the accumulator
(i.e. first received any score contribution, zero or not) — not the order
of first nonzero contribution. -/
theorem search_sorted_stable {query : String} {top_k : Nat} {s : EngineState}
    {results : List SearchResult} (h : search query top_k s = some results) :
    results.Pairwise (fun a b => b.score ≤ a.score) ∧
    (∀ r ∈ results, ∃ raw, alGet r.doc_id (docScores (tokenize query) s) = some raw ∧
      r.score = round4 raw) ∧
    (∀ i j (hi : i < results.length) (hj : j < results.length), i < j →
      ∀ ri rj, alGet (results.get ⟨i, hi⟩).doc_id (docScores (tokenize query) s) = some ri →
        alGet (results.get ⟨j, hj⟩).doc_id (docScores (tokenize query) s) = some rj →
        ri = rj →
        List.indexOf (results.get ⟨i, hi⟩).doc_id
            (alKeys (docScores (tokenize query) s)) <
          List.indexOf (results.get ⟨j, hj⟩).doc_id
            (alKeys (docScores (tokenize query) s))) := by
  unfold search at h
  by_cases h1 : (tokenize query).isEmpty
  · rw [if_pos h1] at h
    injection h with h
    subst h
    refine ⟨by simp, by simp, ?_⟩
    intro i j hi
    simp at hi
  · rw [if_neg h1] at h
    by_cases h2 : (docScores (tokenize query) s).isEmpty
    · rw [if_pos h2] at h
      injection h with h
      subst h
      refine ⟨by simp, by simp, ?_⟩
      intro i j hi
      simp at hi
    · rw [if_neg h2] at h
      -- the abbreviations of the main branch
      have hnd := docScores_keys_nodup (tokenize query) s
      have hlen := optMap_length h
      have hsorted : (List.take top_k
          (sortDescBy Prod.snd (docScores (tokenize query) s))).Pairwise
          (fun a b => b.2 ≤ a.2) :=
        (pairwise_sortDescBy Prod.snd _).sublist (List.take_sublist top_k _)
      -- per-entry description
      have hentry : ∀ (i : Nat) (hi : i < results.length),
          ∀ hti : i < (List.take top_k
            (sortDescBy Prod.snd (docScores (tokenize query) s))).length,
          (results.get ⟨i, hi⟩).doc_id = ((List.take top_k
            (sortDescBy Prod.snd (docScores (tokenize query) s))).get ⟨i, hti⟩).1 ∧
          (results.get ⟨i, hi⟩).score = round4 ((List.take top_k
            (sortDescBy Prod.snd (docScores (tokenize query) s))).get ⟨i, hti⟩).2 := by
        intro i hi hti
        have hf := optMap_get h i hti hi
        rcases hg : alGet ((List.take top_k
            (sortDescBy Prod.snd (docScores (tokenize query) s))).get ⟨i, hti⟩).1
            s.documents with _ | doc
        · rw [hg] at hf
          simp at hf
        · rw [hg] at hf
          simp only [Option.map_some', Option.some.injEq] at hf
          rw [← hf]
          exact ⟨rfl, rfl⟩
      have hmemds : ∀ (i : Nat) (hti : i < (List.take top_k
          (sortDescBy Prod.snd (docScores (tokenize query) s))).length),
          alGet ((List.take top_k
            (sortDescBy Prod.snd (docScores (tokenize query) s))).get ⟨i, hti⟩).1
            (docScores (tokenize query) s) = some ((List.take top_k
            (sortDescBy Prod.snd (docScores (tokenize query) s))).get ⟨i, hti⟩).2 := by
        intro i hti
        have hmem : (List.take top_k
            (sortDescBy Prod.snd (docScores (tokenize query) s))).get ⟨i, hti⟩ ∈
            docScores (tokenize query) s := by
          have h3 : (List.take top_k
              (sortDescBy Prod.snd (docScores (tokenize query) s))).get ⟨i, hti⟩ ∈
              List.take top_k (sortDescBy Prod.snd (docScores (tokenize query) s)) :=
            List.get_mem _ i hti
          have h4 := (List.take_sublist top_k _).subset h3
          exact (sortDescBy_perm Prod.snd _).mem_iff.1 h4
        exact (alGet_eq_some_iff_mem hnd).2 hmem
      refine ⟨?_, ?_, ?_⟩
      · rw [List.pairwise_iff_get]
        intro i j hij
        obtain ⟨hd1, hs1⟩ := hentry i i.isLt (by rw [← hlen]; exact i.isLt)
        obtain ⟨hd2, hs2⟩ := hentry j j.isLt (by rw [← hlen]; exact j.isLt)
        rw [hs1, hs2]
        refine round4_mono ?_
        have := List.pairwise_iff_get.1 hsorted ⟨i, by rw [← hlen]; exact i.isLt⟩
          ⟨j, by rw [← hlen]; exact j.isLt⟩ hij
        exact this
      · intro r hr
        rcases List.mem_iff_get.1 hr with ⟨⟨i, hi⟩, hri⟩
        obtain ⟨hd, hs⟩ := hentry i hi (by rw [← hlen]; exact hi)
        refine ⟨((List.take top_k
          (sortDescBy Prod.snd (docScores (tokenize query) s))).get
            ⟨i, by rw [← hlen]; exact hi⟩).2, ?_, ?_⟩
        · rw [← hri, hd]
          exact hmemds i _
        · rw [← hri, hs]
      · intro i j hi hj hij ri rj hri hrj hreq
        have hti : i < (List.take top_k
            (sortDescBy Prod.snd (docScores (tokenize query) s))).length := by
          rw [← hlen]
          exact hi
        have htj : j < (List.take top_k
            (sortDescBy Prod.snd (docScores (tokenize query) s))).length := by
          rw [← hlen]
          exact hj
        obtain ⟨hd1, _⟩ := hentry i hi hti
        obtain ⟨hd2, _⟩ := hentry j hj htj
        rw [hd1] at hri
        rw [hd2] at hrj
        have hrieq : ri = ((List.take top_k
            (sortDescBy Prod.snd (docScores (tokenize query) s))).get ⟨i, hti⟩).2 := by
          have := hmemds i hti
          rw [this] at hri
          injection hri with hri
          exact hri.symm
        have hrjeq : rj = ((List.take top_k
            (sortDescBy Prod.snd (docScores (tokenize query) s))).get ⟨j, htj⟩).2 := by
          have := hmemds j htj
          rw [this] at hrj
          injection hrj with hrj
          exact hrj.symm
        have hpair : List.Sublist
            [(List.take top_k (sortDescBy Prod.snd (docScores (tokenize query) s))).get
               ⟨i, hti⟩,
             (List.take top_k (sortDescBy Prod.snd (docScores (tokenize query) s))).get
               ⟨j, htj⟩]
            (sortDescBy Prod.snd (docScores (tokenize query) s)) :=
          (pair_sublist_of_get_lt _ i j hti htj hij).trans (List.take_sublist top_k _)
        have hstable := stable_sortDescBy Prod.snd hpair
          (by rw [← hrieq, ← hrjeq]; exact hreq)
        have hkeys : List.Sublist
            [((List.take top_k (sortDescBy Prod.snd
                (docScores (tokenize query) s))).get ⟨i, hti⟩).1,
             ((List.take top_k (sortDescBy Prod.snd
                (docScores (tokenize query) s))).get ⟨j, htj⟩).1]
            (alKeys (docScores (tokenize query) s)) := by
          have := hstable.map Prod.fst
          exact this
        rw [hd1, hd2]
        exact indexOf_lt_of_pair_sublist hkeys hnd

/-! ### The tie-order assertion of C4 and its counterexample -/

/-- Formalised from the specification: the score contributions processed by
the accumulation loop of `search`, in processing order (query-term order,
then TF-IDF row order). -/
noncomputable def scoreContribs (query_terms : List String) (s : EngineState) :
    List (String × ℝ) :=
  query_terms.foldl (fun acc term =>
    match alGet term s.tfidf_scores with
    | none => acc
    | some docs => acc ++ docs) []

/-- Formalised from the specification: the order in which documents first
acquire a nonzero accumulated score during the accumulation loop. -/
noncomputable def firstNonzeroAcqOrder (query_terms : List String) (s : EngineState) :
    List String :=
  ((scoreContribs query_terms s).foldl (fun st p =>
    let old := (alGet p.1 st.1).getD 0
    if old = 0 ∧ old + p.2 ≠ 0 then (alAdd p.1 p.2 st.1, st.2 ++ [p.1])
    else (alAdd p.1 p.2 st.1, st.2))
    (([] : AList ℝ), ([] : List String))).2

/-- The assertion of claim C4 at one query, result bound and state: result
scores are non-increasing, and equal-score entries appear in the relative
order in which their documents first acquired a nonzero accumulated
score. -/
def C4Property (query : String) (top_k : Nat) (s : EngineState) : Prop :=
  ∀ results, search query top_k s = some results →
    results.Pairwise (fun a b => b.score ≤ a.score) ∧
    ∀ (i j : Nat) (hi : i < results.length) (hj : j < results.length), i < j →
      (results.get ⟨i, hi⟩).score = (results.get ⟨j, hj⟩).score →
      List.indexOf (results.get ⟨i, hi⟩).doc_id
          (firstNonzeroAcqOrder (tokenize query) s) <
        List.indexOf (results.get ⟨j, hj⟩).doc_id
          (firstNonzeroAcqOrder (tokenize query) s)

/-- The two-document state of the C4 counterexample. -/
def S2 : EngineState :=
  add_document "d2" "" "common yyy" "" (add_document "d1" "" "common xxx" "" initState)

/-- `S2` after the recompute: `common` occurs in both documents
(`idf = ln(2/2) = 0`), `xxx` only in `d1` and `yyy` only in `d2`. -/
noncomputable def S2t : EngineState :=
  { S2 with tfidf_scores :=
    [("common", [("d1", tfidfEntry 2 2 2 1), ("d2", tfidfEntry 2 2 2 1)]),
     ("xxx", [("d1", tfidfEntry 2 1 2 1)]),
     ("yyy", [("d2", tfidfEntry 2 1 2 1)])] }

theorem calculate_tfidf_S2 : calculate_tfidf S2 = some S2t := rfl

/-- The common accumulated score of both documents on the query
`"common yyy xxx"`. -/
noncomputable def S2c : ℝ := tfidfEntry 2 2 2 1 + tfidfEntry 2 1 2 1

theorem docScores_S2t :
    docScores (tokenize "common yyy xxx") S2t = [("d1", S2c), ("d2", S2c)] := rfl

theorem sort_S2t :
    sortDescBy Prod.snd [("d1", S2c), ("d2", S2c)] = [("d1", S2c), ("d2", S2c)] := by
  show insertDescBy Prod.snd ("d1", S2c) (insertDescBy Prod.snd ("d2", S2c) []) =
    [("d1", S2c), ("d2", S2c)]
  rw [insertDescBy_nil, insertDescBy_cons, if_pos (le_refl S2c)]

/-- The result rows of `search "common yyy xxx" 10 S2t`. -/
noncomputable def S2Results : List SearchResult :=
  [⟨"d1", "", "", "common xxx", round4 S2c, ["common", "xxx"]⟩,
   ⟨"d2", "", "", "common yyy", round4 S2c, ["common", "yyy"]⟩]

theorem search_S2t_eval : search "common yyy xxx" 10 S2t = some S2Results := by
  unfold search
  rw [if_neg (by decide)]
  rw [if_neg (by rw [docScores_S2t]; decide)]
  rw [docScores_S2t, sort_S2t]
  rfl

theorem tfidfEntry_2221_eq_zero : tfidfEntry 2 2 2 1 = 0 := by
  unfold tfidfEntry
  push_cast
  norm_num [Real.log_one]

theorem tfidfEntry_2121_ne_zero : tfidfEntry 2 1 2 1 ≠ 0 := by
  unfold tfidfEntry
  push_cast
  have hlog : 0 < Real.log (2 / 1) := Real.log_pos (by norm_num)
  have h2 : (0 : ℝ) < 1 / 2 * Real.log (2 / 1) := by positivity
  exact ne_of_gt h2

theorem scoreContribs_S2t :
    scoreContribs (tokenize "common yyy xxx") S2t =
      [("d1", tfidfEntry 2 2 2 1), ("d2", tfidfEntry 2 2 2 1),
       ("d2", tfidfEntry 2 1 2 1), ("d1", tfidfEntry 2 1 2 1)] := rfl

/-- On this corpus the documents first acquire a *nonzero* accumulated
score in the order `d2, d1` (the idf-0 term `common` contributes zero to
both first). -/
theorem firstNonzeroAcqOrder_S2t :
    firstNonzeroAcqOrder (tokenize "common yyy xxx") S2t = ["d2", "d1"] := by
  unfold firstNonzeroAcqOrder
  rw [scoreContribs_S2t]
  simp only [List.foldl_cons, List.foldl_nil]
  simp [alAdd, tfidfEntry_2221_eq_zero, tfidfEntry_2121_ne_zero]

/-- C4 counterexample: in the reachable state `S2t`, the query
`"common yyy xxx"` returns `d1` then `d2` with equal scores (stable
accumulator order), although `d2` acquired a nonzero accumulated score
strictly before `d1` — the claim's tie rule predicts `d2` first. -/
theorem search_tie_order_cex :
    calculate_tfidf S2 = some S2t ∧ Reachable S2t ∧
    ¬ C4Property "common yyy xxx" 10 S2t := by
  refine ⟨calculate_tfidf_S2,
    Reachable.recompute (Reachable.add "d2" "" "common yyy" ""
      (Reachable.add "d1" "" "common xxx" "" Reachable.init)) calculate_tfidf_S2, ?_⟩
  intro hC4
  obtain ⟨_, hties⟩ := hC4 S2Results search_S2t_eval
  have h01 := hties 0 1 (by norm_num [S2Results]) (by norm_num [S2Results])
    (by omega) rfl
  rw [firstNonzeroAcqOrder_S2t] at h01
  have hd1 : (S2Results.get ⟨0, by norm_num [S2Results]⟩).doc_id = "d1" := rfl
  have hd2 : (S2Results.get ⟨1, by norm_num [S2Results]⟩).doc_id = "d2" := rfl
  rw [hd1, hd2] at h01
  have hidx : List.indexOf "d1" ["d2", "d1"] = 1 ∧ List.indexOf "d2" ["d2", "d1"] = 0 := by
    constructor <;> rfl
  rw [hidx.1, hidx.2] at h01
  omega

/-- Witness for the amended C4 at the concrete corpus: the equal-score pair
`d1, d2` is returned in accumulator (first-contribution) order. -/
theorem search_sorted_stable_witness :
    List.indexOf "d1" (alKeys (docScores (tokenize "common yyy xxx") S2t)) <
      List.indexOf "d2" (alKeys (docScores (tokenize "common yyy xxx") S2t)) := by
  have h := (search_sorted_stable search_S2t_eval).2.2 0 1
    (by norm_num [S2Results]) (by norm_num [S2Results]) (by omega) S2c S2c rfl rfl rfl
  exact h

/-- Witness for C3 at the concrete two-document corpus: the posting of
`xxx` in `d1` receives `(1/2) * ln(2/1)`. -/
theorem calculate_tfidf_spec_witness :
    ∃ dl scs, alGet "d1" S2.doc_lengths = some dl ∧
      alGet "xxx" S2t.tfidf_scores = some scs ∧
      alGet "d1" scs = some ((if 0 < dl then ((1 : ℕ) : ℝ) / (dl : ℝ) else 0) *
        Real.log ((S2.documents.length : ℝ) / (([("d1", 1)] : AList Nat).length : ℝ))) :=
  ((calculate_tfidf_spec (Reachable.add "d2" "" "common yyy" ""
      (Reachable.add "d1" "" "common xxx" "" Reachable.init)) calculate_tfidf_S2).2
    "xxx" [("d1", 1)] (by decide)).1 "d1" 1 (by decide)

end SearchEngine
